import Mathlib

/-!
Verification development for the hybrid retrieval and ranking subsystem of the
LegalWise RAG pipeline (backend/rag/chain.py, backend/rag/retriever.py,
backend/vectorstore/store.py, backend/config.py).

Modelling conventions:
* Python dicts flowing through the pipeline ({"chunk", "metadata", "score",
  "source", "rrf_score", "rerank_score"}) are modelled as a record with
  optional fields; a missing key is `none`.
* Python floats are modelled as exact rationals (ℚ).  No claim below depends
  on floating-point rounding.
* The ChromaDB collection is external; `store.py` is modelled over a plain
  list of stored chunks: `size` is its length, `get_all_chunks` returns it,
  `get_chunks_by_pages` filters it by the metadata page, preserving
  store order (Chroma `get` with a `where` filter).
* The external `rank_bm25.BM25Okapi` scorer, the dense (ChromaDB embedding)
  search and the sentence-transformers cross-encoder are opaque third-party
  services; they are passed in as function parameters (`bmScores`, `dense`,
  `ce`).  The code of this repository that surrounds them is embedded
  faithfully.
* Regex scanning (`re.finditer`) over the five fixed page patterns of
  chain.py is embedded as a direct left-to-right scanner; each pattern is a
  deterministic matcher (the patterns need no general backtracking except the
  greedy repetition of the comma-list pattern, which is handled by taking the
  longest repetition count whose end lands on a word boundary, exactly the
  order a backtracking engine tries).  `\w`, `\s`, `\d` are modelled at their
  ASCII meaning; the claims under check involve only ASCII queries.
-/

namespace LW

/-- Metadata attached to a stored chunk ({document, page}); the fields the
retrieval core reads. -/
structure Meta where
  document : String
  page : Nat
deriving Repr, DecidableEq

/-- A pipeline dict: chunk text, metadata and the optional score keys that the
various stages attach ("score", "source", "rrf_score", "rerank_score"). -/
structure ChunkDict where
  chunk : String
  metadata : Meta
  score : Option ℚ := none
  source : Option String := none
  rrf_score : Option ℚ := none
  rerank_score : Option ℚ := none
deriving Repr, DecidableEq

instance : Inhabited ChunkDict := ⟨⟨"", ⟨"", 0⟩, none, none, none, none⟩⟩

/-- backend/config.py: RETRIEVAL_TOP_K = 15. -/
def RETRIEVAL_TOP_K : Nat := 15

/-- backend/config.py: RERANK_TOP_K = 5. -/
def RERANK_TOP_K : Nat := 5

/-- backend/config.py: BM25_WEIGHT = 0.3. -/
def BM25_WEIGHT : ℚ := 3 / 10

/-- backend/config.py: SEMANTIC_WEIGHT = 0.7. -/
def SEMANTIC_WEIGHT : ℚ := 7 / 10

/-- backend/rag/chain.py: _FULL_DOC_CHUNK_THRESHOLD = 40. -/
def FULL_DOC_CHUNK_THRESHOLD : Nat := 40

/-- ASCII lower-casing of a character (kernel-computable stand-in for
Python str.lower on the ASCII queries under consideration). -/
def lowerCh (c : Char) : Char :=
  if 'A' ≤ c ∧ c ≤ 'Z' then Char.ofNat (c.toNat + 32) else c

/-- ASCII lower-casing of a string. -/
def lowerStr (s : String) : String := ⟨s.data.map lowerCh⟩

/-- Python regex `\w` (ASCII part): letters, digits, underscore. -/
def isWordCh (c : Char) : Bool := c.isAlpha || c.isDigit || c = '_'

/-- Python regex `\s` (ASCII part): space, tab, newline, CR, VT, FF. -/
def isSpaceCh (c : Char) : Bool :=
  c = ' ' || c = '\t' || c = '\n' || c = '\r' || c = Char.ofNat 11 || c = Char.ofNat 12

/-- Helper for `pySplit`: accumulate the current token (reversed). -/
def splitWsAux : List Char → List Char → List String
  | [], [] => []
  | [], acc => [⟨acc.reverse⟩]
  | c :: s, acc =>
    if isSpaceCh c then
      match acc with
      | [] => splitWsAux s []
      | _ => ⟨acc.reverse⟩ :: splitWsAux s []
    else splitWsAux s (c :: acc)

/-- Python `str.split()` with no argument: split on whitespace runs,
dropping empty tokens. -/
def pySplit (s : String) : List String := splitWsAux s.data []

/-- retriever.py line 73: a stored chunk as the BM25 tokenizer sees it,
`doc.lower().split()`. -/
def tokenizeDoc (d : ChunkDict) : List String := pySplit (lowerStr d.chunk)

/-- Greedy `\s*`: drop a maximal run of whitespace. -/
def dropSpaces : List Char → List Char
  | c :: s => if isSpaceCh c then dropSpaces s else c :: s
  | [] => []

/-- Greedy `\s+`: at least one whitespace character, then a maximal run. -/
def spaces1 : List Char → Option (List Char)
  | c :: s => if isSpaceCh c then some (dropSpaces s) else none
  | [] => none

/-- Case-insensitive literal (pattern given in lower case), as in the
re.I-compiled patterns of chain.py. -/
def litCI : List Char → List Char → Option (List Char)
  | [], s => some s
  | _, [] => none
  | l :: ls, c :: s => if lowerCh c = l then litCI ls s else none

/-- Optional single character `c?` (case-insensitive).  In every pattern of
chain.py the optional character can never begin the rest of the pattern, so
the greedy take is exact. -/
def optCh (c : Char) : List Char → List Char
  | d :: s => if lowerCh d = c then s else d :: s
  | [] => []

/-- Maximal run of ASCII digits. -/
def takeDigits : List Char → List Char × List Char
  | c :: s =>
    if c.isDigit then
      let p := takeDigits s
      (c :: p.1, p.2)
    else ([], c :: s)
  | [] => ([], [])

/-- Numeric value of a digit run (Python int()). -/
def natOfDigits (ds : List Char) : Nat := ds.foldl (fun n c => n * 10 + (c.toNat - 48)) 0

/-- Greedy `(\d+)`: at least one digit, maximal run, returning its value. -/
def digits1 (s : List Char) : Option (Nat × List Char) :=
  match takeDigits s with
  | ([], _) => none
  | (ds, r) => some (natOfDigits ds, r)

/-- Regex `\b` placed after a digit: the next character must be a non-word
character or the end of the string. -/
def boundaryAfter : List Char → Bool
  | [] => true
  | c :: _ => !isWordCh c

/-- The range connector `(?:to|through|[-–—])` of pattern 1, tried in the
regex alternation order ("to" and "through" cannot match the same text, so
the first-match choice is exact). -/
def connector (s : List Char) : Option (List Char) :=
  match litCI ['t', 'o'] s with
  | some r => some r
  | none =>
    match litCI ['t', 'h', 'r', 'o', 'u', 'g', 'h'] s with
    | some r => some r
    | none =>
      match s with
      | c :: r =>
        if c = '-' ∨ c = Char.ofNat 0x2013 ∨ c = Char.ofNat 0x2014 then some r else none
      | [] => none

/-- chain.py pattern 1, `\bpages?\s+(\d+)\s*(?:to|through|[-–—])\s*(\d+)\b`
(the leading `\b` is checked by the scan driver). -/
def matchP1 (s : List Char) : Option ((Nat × Nat) × List Char) := do
  let s ← litCI ['p', 'a', 'g', 'e'] s
  let s := optCh 's' s
  let s ← spaces1 s
  let (a, s) ← digits1 s
  let s := dropSpaces s
  let s ← connector s
  let s := dropSpaces s
  let (b, s) ← digits1 s
  if boundaryAfter s then some ((a, b), s) else none

/-- One repetition `\s*,\s*\d+` of pattern 2. -/
def repComma (s : List Char) : Option (Nat × List Char) :=
  match dropSpaces s with
  | ',' :: s2 => digits1 (dropSpaces s2)
  | _ => none

/-- All successive greedy repetitions of `\s*,\s*\d+`, with the rest of the
input after each one (fuel-bounded; each repetition consumes at least one
character). -/
def repsComma : Nat → List Char → List (Nat × List Char)
  | 0, _ => []
  | fuel + 1, s =>
    match repComma s with
    | none => []
    | some (n, s2) => (n, s2) :: repsComma fuel s2

/-- Longest repetition prefix whose end satisfies the final `\b` — exactly the
order in which a backtracking engine abandons greedy repetitions. -/
def pickReps : List (Nat × List Char) → Option (List Nat × List Char)
  | [] => none
  | (n, s) :: rest =>
    match pickReps rest with
    | some (ns, s2) => some (n :: ns, s2)
    | none => if boundaryAfter s then some ([n], s) else none

/-- chain.py pattern 2, `\bpages?\s+(\d+(?:\s*,\s*\d+)+)\b`; the group value
is reported as the list of digit-run values, matching the later
`re.findall(r'\d+', raw)` step of `_extract_page_numbers`. -/
def matchP2 (s : List Char) : Option (List Nat × List Char) := do
  let s ← litCI ['p', 'a', 'g', 'e'] s
  let s := optCh 's' s
  let s ← spaces1 s
  let (a, s) ← digits1 s
  let (ns, s) ← pickReps (repsComma s.length s)
  pure (a :: ns, s)

/-- chain.py pattern 3, `\bpages?\s*#?\s*(\d+)\b`. -/
def matchP3 (s : List Char) : Option (Nat × List Char) := do
  let s ← litCI ['p', 'a', 'g', 'e'] s
  let s := optCh 's' s
  let s := dropSpaces s
  let s := optCh '#' s
  let s := dropSpaces s
  let (n, s) ← digits1 s
  if boundaryAfter s then some (n, s) else none

/-- chain.py pattern 4, `\bpg\.?\s*(\d+)\b`. -/
def matchP4 (s : List Char) : Option (Nat × List Char) := do
  let s ← litCI ['p', 'g'] s
  let s := optCh '.' s
  let s := dropSpaces s
  let (n, s) ← digits1 s
  if boundaryAfter s then some (n, s) else none

/-- The preposition alternation `(?:on|in|at|from)` of pattern 5 (the four
words start with distinct letters, so the first-match choice is exact). -/
def prepWord (s : List Char) : Option (List Char) :=
  match litCI ['o', 'n'] s with
  | some r => some r
  | none =>
    match litCI ['i', 'n'] s with
    | some r => some r
    | none =>
      match litCI ['a', 't'] s with
      | some r => some r
      | none => litCI ['f', 'r', 'o', 'm'] s

/-- chain.py pattern 5, `\b(?:on|in|at|from)\s+page\s*(\d+)\b`. -/
def matchP5 (s : List Char) : Option (Nat × List Char) := do
  let s ← prepWord s
  let s ← spaces1 s
  let s ← litCI ['p', 'a', 'g', 'e'] s
  let s := dropSpaces s
  let (n, s) ← digits1 s
  if boundaryAfter s then some (n, s) else none

/-- re.finditer driver: scan left to right; at each position where the
pattern's leading `\b` holds (the previous character, tracked as `prevW`, is
not a word character) try the matcher; on success record the groups and
resume after the match (every successful match ends in a digit, a word
character).  Fuel bounds the number of scan steps by the input length. -/
def scanAux {G : Type} (m : List Char → Option (G × List Char)) :
    Nat → Bool → List Char → List G
  | 0, _, _ => []
  | _ + 1, _, [] => []
  | fuel + 1, prevW, c :: s =>
    match (if prevW then none else m (c :: s)) with
    | some (g, rest) => g :: scanAux m fuel true rest
    | none => scanAux m fuel (isWordCh c) s

/-- All matches of one pattern over a query string. -/
def scanPattern {G : Type} (m : List Char → Option (G × List Char)) (q : String) : List G :=
  scanAux m q.data.length false q.data

/-- Page numbers contributed by every match of every pattern of
`_PAGE_PATTERNS`, before deduplication: a range match (a, b) contributes
`range(a, b + 1)` (chain.py line 47), the other patterns contribute the
digit runs found in their group. -/
def matchedNumbers (q : String) : List Nat :=
  ((scanPattern matchP1 q).flatMap fun ab => (List.range (ab.2 + 1 - ab.1)).map (· + ab.1))
    ++ (scanPattern matchP2 q).flatMap id
    ++ scanPattern matchP3 q
    ++ scanPattern matchP4 q
    ++ scanPattern matchP5 q

/-- chain.py `_extract_page_numbers`: the sorted deduplicated union
(`sorted(pages)` over the accumulated set). -/
def extract_page_numbers (q : String) : List Nat :=
  List.insertionSort (· ≤ ·) (matchedNumbers q).dedup

/-- retriever.py module state for the BM25 cache: `_bm25_cache_size` (an int,
initially -1), `_bm25_index` (the BM25Okapi object, modelled by the tokenized
corpus it was built from) and `_bm25_chunks`. -/
structure BmCache where
  size : Int := -1
  index : Option (List (List String)) := none
  chunks : List ChunkDict := []
deriving Repr, DecidableEq

/-- store.py `get_chunks_by_pages`: chunks whose metadata page is in the
requested list, in store order. -/
def get_chunks_by_pages (store : List ChunkDict) (pages : List Nat) : List ChunkDict :=
  store.filter fun d => d.metadata.page ∈ pages

/-- retriever.py `_get_bm25_index`: returns (index, all_chunks) and the new
module state, plus an explicit flag recording whether the rebuild branch ran
(the spec's "rebuild counter" instrumentation).  The code's inner
`if not all_chunks: return None, []` guard is unreachable in the list model
of the store, where a positive size means a non-empty chunk list. -/
def get_bm25_index (store : List ChunkDict) (c : BmCache) :
    (Option (List (List String)) × List ChunkDict) × BmCache × Bool :=
  if store.length = 0 then ((none, []), c, false)
  else if (store.length : Int) ≠ c.size then
    let tokenized := store.map tokenizeDoc
    ((some tokenized, store),
      { size := (store.length : Int), index := some tokenized, chunks := store }, true)
  else ((c.index, c.chunks), c, false)

/-- Index comparison by descending score, the order `_bm25_search` ranks
chunk indices in. -/
def scoreGE (scores : List ℚ) (i j : Nat) : Prop :=
  scores.getD j 0 ≤ scores.getD i 0

instance (scores : List ℚ) : DecidableRel (scoreGE scores) := fun i j =>
  inferInstanceAs (Decidable (scores.getD j 0 ≤ scores.getD i 0))

instance (scores : List ℚ) : IsTotal Nat (scoreGE scores) :=
  ⟨fun i j => le_total (scores.getD j 0) (scores.getD i 0)⟩

instance (scores : List ℚ) : IsTrans Nat (scoreGE scores) :=
  ⟨fun _ _ _ h1 h2 => le_trans h2 h1⟩

/-- retriever.py lines 102-104: `np.argpartition(scores, -k)[-k:]` followed by
the descending argsort of the selected slice — the indices of a top-k subset
(every unselected score is at most every selected one), listed in
non-increasing score order.  numpy leaves the order among tied scores
unspecified; this model fixes one concrete choice (a stable full sort), which
agrees with the code on every property that does not depend on tie order. -/
def bm25TopIdx (scores : List ℚ) (k : Nat) : List Nat :=
  (List.insertionSort (scoreGE scores) (List.range scores.length)).take k

/-- One result entry of `_bm25_search` (lines 107-116): skip non-positive
scores, otherwise build the result dict from the indexed chunk. -/
def bm25Entry (scores : List ℚ) (all_chunks : List ChunkDict) (idx : Nat) :
    Option ChunkDict :=
  let s := scores.getD idx 0
  if s ≤ 0 then none
  else some { chunk := (all_chunks.getD idx default).chunk,
              metadata := (all_chunks.getD idx default).metadata,
              score := some s, source := some "bm25" }

/-- retriever.py `_bm25_search`: BM25 keyword search over all stored chunks.
`bmScores` is the opaque third-party `BM25Okapi.get_scores`, a function of the
tokenized corpus the index was built from and the tokenized query.  Returns
the results, the new cache state and the rebuild flag passed through from
`get_bm25_index`. -/
def bm25_search (bmScores : List (List String) → List String → List ℚ)
    (query : String) (top_k : Nat) (store : List ChunkDict) (c : BmCache) :
    List ChunkDict × BmCache × Bool :=
  match get_bm25_index store c with
  | ((none, _), c2, rb) => ([], c2, rb)
  | ((some tokenized, all_chunks), c2, rb) =>
    let scores := bmScores tokenized (pySplit (lowerStr query))
    let k := min top_k scores.length
    if k = 0 then ([], c2, rb)
    else ((bm25TopIdx scores k).filterMap (bm25Entry scores all_chunks), c2, rb)

/-- Python dict read with a default, `scores.get(text, 0)`: the value at the
first (and, for dicts, only) occurrence of the key. -/
def getVal : List (String × ℚ) → String → ℚ
  | [], _ => 0
  | (k, v) :: r, t => if k = t then v else getVal r t

/-- Key membership in the modelled dict. -/
def hasKey : List (String × ℚ) → String → Bool
  | [], _ => false
  | (k, _) :: r, t => k = t || hasKey r t

/-- Python `scores[text] = scores.get(text, 0) + d`: update in place (keeping
the key's insertion position) or append a new key. -/
def updAdd : List (String × ℚ) → String → ℚ → List (String × ℚ)
  | [], t, d => [(t, d)]
  | (k, v) :: r, t, d => if k = t then (k, v + d) :: r else (k, v) :: updAdd r t d

/-- Python `chunk_map[text] = r`: overwrite in place or append. -/
def mapPut : List (String × ChunkDict) → String → ChunkDict → List (String × ChunkDict)
  | [], t, d => [(t, d)]
  | (k, v) :: r, t, d => if k = t then (k, d) :: r else (k, v) :: mapPut r t d

/-- Python `if text not in chunk_map: chunk_map[text] = r`. -/
def mapPutNew : List (String × ChunkDict) → String → ChunkDict → List (String × ChunkDict)
  | [], t, d => [(t, d)]
  | (k, v) :: r, t, d => if k = t then (k, v) :: r else (k, v) :: mapPutNew r t d

/-- Lookup in the chunk map (total on the keys actually present). -/
def mapGet : List (String × ChunkDict) → String → ChunkDict
  | [], _ => default
  | (k, v) :: r, t => if k = t then v else mapGet r t

/-- retriever.py lines 135-138, the semantic loop of
`_reciprocal_rank_fusion`: accumulate `SEMANTIC_WEIGHT / (k + rank + 1)` and
store (overwriting) the candidate in `chunk_map`. -/
def rrfLoopSem (k : Nat) :
    List (String × ℚ) × List (String × ChunkDict) → Nat → List ChunkDict →
    List (String × ℚ) × List (String × ChunkDict)
  | st, _, [] => st
  | (sc, cm), rank, r :: rs =>
    rrfLoopSem k
      (updAdd sc r.chunk (SEMANTIC_WEIGHT / ((k : ℚ) + (rank : ℚ) + 1)),
       mapPut cm r.chunk r) (rank + 1) rs

/-- retriever.py lines 140-144, the bm25 loop: accumulate
`BM25_WEIGHT / (k + rank + 1)` and store the candidate only if its text is
not yet in `chunk_map`. -/
def rrfLoopBm (k : Nat) :
    List (String × ℚ) × List (String × ChunkDict) → Nat → List ChunkDict →
    List (String × ℚ) × List (String × ChunkDict)
  | st, _, [] => st
  | (sc, cm), rank, r :: rs =>
    rrfLoopBm k
      (updAdd sc r.chunk (BM25_WEIGHT / ((k : ℚ) + (rank : ℚ) + 1)),
       mapPutNew cm r.chunk r) (rank + 1) rs

/-- The `scores` and `chunk_map` dicts of `_reciprocal_rank_fusion` after
both accumulation loops. -/
def fusionState (semantic_results bm25_results : List ChunkDict) (k : Nat) :
    List (String × ℚ) × List (String × ChunkDict) :=
  rrfLoopBm k (rrfLoopSem k ([], []) 0 semantic_results) 0 bm25_results

/-- retriever.py `_reciprocal_rank_fusion` (k = 60 at the call site): both
accumulation loops, then the texts sorted by descending fused score
(Python `sorted(..., reverse=True)` is stable, as is `insertionSort` with
this relation), then one copied entry per text with `rrf_score` attached. -/
def reciprocal_rank_fusion (semantic_results bm25_results : List ChunkDict)
    (k : Nat) : List ChunkDict :=
  let st2 := fusionState semantic_results bm25_results k
  let sorted_texts :=
    List.insertionSort (fun a b => getVal st2.1 b ≤ getVal st2.1 a) (st2.1.map Prod.fst)
  sorted_texts.map fun t => { mapGet st2.2 t with rrf_score := some (getVal st2.1 t) }

/-- Sort key of `_rerank`, line 174: descending by `rerank_score`. -/
def rerankGE (a b : ChunkDict) : Prop :=
  b.rerank_score.getD 0 ≤ a.rerank_score.getD 0

instance : DecidableRel rerankGE := fun a b =>
  inferInstanceAs (Decidable (b.rerank_score.getD 0 ≤ a.rerank_score.getD 0))

instance : IsTotal ChunkDict rerankGE :=
  ⟨fun a b => le_total (b.rerank_score.getD 0) (a.rerank_score.getD 0)⟩

instance : IsTrans ChunkDict rerankGE :=
  ⟨fun _ _ _ h1 h2 => le_trans h2 h1⟩

/-- retriever.py `_rerank`: empty candidates short-circuit before the model;
otherwise attach a cross-encoder score to every candidate, sort descending
by it (Python list.sort with reverse=True is stable, as is `insertionSort`
with this relation) and keep the top-k slice.  `ce` is the opaque
cross-encoder; the boolean records whether the model was invoked. -/
def rerank (ce : String → String → ℚ) (query : String)
    (candidates : List ChunkDict) (top_k : Nat) : List ChunkDict × Bool :=
  if candidates = [] then ([], false)
  else
    let scored := candidates.map fun c =>
      { c with rerank_score := some (ce query c.chunk) }
    ((List.insertionSort rerankGE scored).take top_k, true)

/-- retriever.py `hybrid_retrieve`: the full hybrid pipeline, threading the
BM25 cache state explicitly.  `dense` is the opaque dense search
(`vector_store.search`) for the fixed store snapshot. -/
def hybrid_retrieve (dense : String → Nat → List ChunkDict)
    (ce : String → String → ℚ)
    (bmScores : List (List String) → List String → List ℚ)
    (query : String) (store : List ChunkDict) (c : BmCache) :
    List ChunkDict × BmCache :=
  if store.length = 0 then ([], c)
  else
    let first_pass_k := min RETRIEVAL_TOP_K store.length
    let semantic_hits := (dense query first_pass_k).map fun h =>
      { h with source := some "semantic" }
    let bmOut := bm25_search bmScores query first_pass_k store c
    let fused := reciprocal_rank_fusion semantic_hits bmOut.1 60
    let rerank_candidates := min (RETRIEVAL_TOP_K * 2) fused.length
    ((rerank ce query (fused.take rerank_candidates) RERANK_TOP_K).1, bmOut.2.1)

/-- Which retrieval branch of `query_rag` ran (the spec's "mode flag"
instrumentation for "skips all further retrieval stages"). -/
inductive RMode
  | emptyStore
  | pageTargeted
  | fullDoc
  | hybridMode
deriving Repr, DecidableEq

/-- chain.py lines 139-146 and 158-165: a fetched chunk turned into a result
dict `{"chunk": ..., "metadata": ..., "rerank_score": 1.0}`. -/
def tagMaxScore (item : ChunkDict) : ChunkDict :=
  { chunk := item.chunk, metadata := item.metadata, rerank_score := some 1 }

/-- chain.py `query_rag`, retrieval stage (lines 123-168): the empty-store
guard, then page-targeted mode, then full-document mode, then hybrid
retrieval, threading the BM25 cache and reporting which branch ran. -/
def query_rag_retrieve (dense : String → Nat → List ChunkDict)
    (ce : String → String → ℚ)
    (bmScores : List (List String) → List String → List ℚ)
    (question : String) (store : List ChunkDict) (c : BmCache) :
    (List ChunkDict × RMode) × BmCache :=
  if store.length = 0 then (([], RMode.emptyStore), c)
  else
    let requested_pages := extract_page_numbers question
    if requested_pages ≠ [] then
      let page_data := get_chunks_by_pages store requested_pages
      if page_data ≠ [] then ((page_data.map tagMaxScore, RMode.pageTargeted), c)
      else
        let out := hybrid_retrieve dense ce bmScores question store c
        ((out.1, RMode.hybridMode), out.2)
    else if store.length ≤ FULL_DOC_CHUNK_THRESHOLD then
      ((store.map tagMaxScore, RMode.fullDoc), c)
    else
      let out := hybrid_retrieve dense ce bmScores question store c
      ((out.1, RMode.hybridMode), out.2)

/-- Rank of a chunk text in a candidate list: the 0-based position of its
first occurrence, if any (the claims' notion of rank, well defined when the
list's texts are distinct). -/
def findRank : List ChunkDict → String → Option Nat
  | [], _ => none
  | d :: l, t => if d.chunk = t then some 0 else (findRank l t).map (· + 1)

/-- Score contribution of one source list under reciprocal rank fusion, as
the spec states it: weight / (K + rank + 1) if the text occurs in the list,
0 otherwise (K = 60). -/
def contrib (w : ℚ) (l : List ChunkDict) (t : String) : ℚ :=
  match findRank l t with
  | some r => w / (60 + (r : ℚ) + 1)
  | none => 0

/-- The fused score the spec's formula assigns to a text. -/
def fusionScore (sem bm : List ChunkDict) (t : String) : ℚ :=
  contrib SEMANTIC_WEIGHT sem t + contrib BM25_WEIGHT bm t

/-- Total contribution one source list adds for a text when its enumeration
starts at `rank`: the sum of w / (k + position + 1) over the occurrences of
the text (used to characterise the accumulation loops; for duplicate-free
lists it collapses to `contrib`). -/
def sumContrib (w : ℚ) (k : Nat) : Nat → List ChunkDict → String → ℚ
  | _, [], _ => 0
  | rank, r :: rs, t =>
    (if r.chunk = t then w / ((k : ℚ) + (rank : ℚ) + 1) else 0) +
      sumContrib w k (rank + 1) rs t

/-- The payload `_reciprocal_rank_fusion` retains for a text: the last
occurrence in the semantic list if the text occurs there (each semantic
occurrence overwrites `chunk_map[text]`), otherwise the first bm25
occurrence. -/
def retainedPayload (sem bm : List ChunkDict) (t : String) : ChunkDict :=
  match (sem.filter fun d => d.chunk = t).getLast? with
  | some d => d
  | none => ((bm.filter fun d => d.chunk = t).head?).getD default

/-- A cache state that is consistent with a store snapshot: whenever its
recorded size matches the live size (so no rebuild will run), its chunk list
and index are exactly the ones a rebuild against this snapshot would
produce.  Every cache state the code itself produces against this snapshot
is consistent; a cache carried over from a different corpus of the same size
(the spec's acknowledged count-only-invalidation gap) need not be. -/
def cacheConsistent (store : List ChunkDict) (c : BmCache) : Prop :=
  c.size = (store.length : Int) →
    c.chunks = store ∧ c.index = some (store.map tokenizeDoc)

instance (store : List ChunkDict) (c : BmCache) :
    Decidable (cacheConsistent store c) :=
  inferInstanceAs (Decidable (_ → _ ∧ _))

/-!
Heap-instrumented view of the same pipeline, for the frame claim about
mutation of the shared BM25 cache.  Python dict objects are given explicit
identity: a heap is a list of dicts addressed by index, candidate lists are
lists of addresses, creating a dict (a literal, or `.copy()`) allocates at
the end of the heap, and the two in-place mutations of the pipeline
(`h["source"] = "semantic"` on dense hits and
`candidates[i]["rerank_score"] = ...` in `_rerank`) are heap writes.  The
cache's `_bm25_chunks` holds addresses.  Dict contents and the scoring logic
are shared with the functional model above.  (A dict's "metadata" value is
kept inline in the record: the pipeline never writes through the shared
metadata sub-dict, so its identity plays no role.)
-/

/-- A heap of dict objects, addressed by position. -/
abbrev Heap := List ChunkDict

/-- Allocate one dict; returns the extended heap and the fresh address. -/
def hAlloc (h : Heap) (d : ChunkDict) : Heap × Nat := (h ++ [d], h.length)

/-- Allocate a list of dicts in order. -/
def hAllocList : Heap → List ChunkDict → Heap × List Nat
  | h, [] => (h, [])
  | h, d :: ds =>
    let p := hAlloc h d
    let q := hAllocList p.1 ds
    (q.1, p.2 :: q.2)

/-- Read a dict from the heap. -/
def hRead (h : Heap) (a : Nat) : ChunkDict := h.getD a default

/-- Overwrite a dict on the heap (in-place dict mutation). -/
def hWrite (h : Heap) (a : Nat) (d : ChunkDict) : Heap := h.set a d

/-- retriever.py `_get_bm25_index` module state with object identity:
`_bm25_chunks` is a list of addresses of the cached chunk dicts. -/
structure HCache where
  size : Int := -1
  index : Option (List (List String)) := none
  addrs : List Nat := []
deriving Repr, DecidableEq

/-- Heap view of `_get_bm25_index`: the rebuild branch materialises the
`get_all_chunks` dicts as fresh objects and replaces the cached list whole;
the fresh path hands back the cached addresses untouched. -/
def hGetBm25Index (store : List ChunkDict) (c : HCache) (h : Heap) :
    (Option (List (List String)) × List Nat) × HCache × Heap :=
  if store.length = 0 then ((none, []), c, h)
  else if (store.length : Int) ≠ c.size then
    let p := hAllocList h store
    let tokenized := store.map tokenizeDoc
    ((some tokenized, p.2),
      { size := (store.length : Int), index := some tokenized, addrs := p.2 }, p.1)
  else ((c.index, c.addrs), c, h)

/-- One result-construction step of `_bm25_search` (lines 106-116): read the
cached chunk dict, build a fresh literal result dict. -/
def hBm25Step (scores : List ℚ) (caddrs : List Nat) (acc : Heap × List Nat)
    (idx : Nat) : Heap × List Nat :=
  let s := scores.getD idx 0
  if s ≤ 0 then acc
  else
    let src := hRead acc.1 (caddrs.getD idx 0)
    let p := hAlloc acc.1
      { chunk := src.chunk, metadata := src.metadata,
        score := some s, source := some "bm25" }
    (p.1, acc.2 ++ [p.2])

/-- Heap view of `_bm25_search`. -/
def hBm25Search (bmScores : List (List String) → List String → List ℚ)
    (query : String) (top_k : Nat) (store : List ChunkDict) (c : HCache)
    (h : Heap) : List Nat × HCache × Heap :=
  match hGetBm25Index store c h with
  | ((none, _), c2, h2) => ([], c2, h2)
  | ((some tokenized, caddrs), c2, h2) =>
    let scores := bmScores tokenized (pySplit (lowerStr query))
    let k := min top_k scores.length
    if k = 0 then ([], c2, h2)
    else
      let p := (bm25TopIdx scores k).foldl (hBm25Step scores caddrs) (h2, [])
      (p.2, c2, p.1)

/-- Heap view of the dense search plus the `h["source"] = "semantic"` loop of
`hybrid_retrieve`: the hits are fresh dicts, then each is mutated in place. -/
def hSemanticHits (dense : String → Nat → List ChunkDict) (query : String)
    (k : Nat) (h : Heap) : List Nat × Heap :=
  let p := hAllocList h (dense query k)
  (p.2, p.2.foldl (fun hh a => hWrite hh a { hRead hh a with source := some "semantic" }) p.1)

/-- Heap view of `_reciprocal_rank_fusion`: read the candidate dicts, compute
the fused entries with the functional model (each `chunk_map[text].copy()`
plus the attached `rrf_score`), and allocate every fused entry as a fresh
object. -/
def hFusion (semA bmA : List Nat) (k : Nat) (h : Heap) : List Nat × Heap :=
  let fusedDicts := reciprocal_rank_fusion (semA.map (hRead h)) (bmA.map (hRead h)) k
  let p := hAllocList h fusedDicts
  (p.2, p.1)

/-- Heap view of `_rerank`: write `rerank_score` into every candidate dict in
place, then sort the address list by the written scores and slice. -/
def hRerank (ce : String → String → ℚ) (query : String) (candA : List Nat)
    (top_k : Nat) (h : Heap) : List Nat × Heap :=
  if candA = [] then ([], h)
  else
    let h2 := candA.foldl
      (fun hh a => hWrite hh a
        { hRead hh a with rerank_score := some (ce query (hRead hh a).chunk) }) h
    let sortedA := List.insertionSort
      (fun a b => (hRead h2 b).rerank_score.getD 0 ≤ (hRead h2 a).rerank_score.getD 0) candA
    (sortedA.take top_k, h2)

/-- Heap view of `hybrid_retrieve`. -/
def hHybridRetrieve (dense : String → Nat → List ChunkDict)
    (ce : String → String → ℚ)
    (bmScores : List (List String) → List String → List ℚ)
    (query : String) (store : List ChunkDict) (c : HCache) (h : Heap) :
    List Nat × HCache × Heap :=
  if store.length = 0 then ([], c, h)
  else
    let first_pass_k := min RETRIEVAL_TOP_K store.length
    let sem := hSemanticHits dense query first_pass_k h
    let bm := hBm25Search bmScores query first_pass_k store c sem.2
    let fu := hFusion sem.1 bm.1 60 bm.2.2
    let rerank_candidates := min (RETRIEVAL_TOP_K * 2) fu.1.length
    let rr := hRerank ce query (fu.1.take rerank_candidates) RERANK_TOP_K fu.2
    (rr.1, bm.2.1, rr.2)

/-!
Concrete fixtures used by witnesses and counterexamples.  The opaque model
functions are instantiated with simple deterministic values.
-/

/-- A stored chunk with given text and page. -/
def exChunk (t : String) (doc : String) (p : Nat) : ChunkDict :=
  { chunk := t, metadata := ⟨doc, p⟩ }

/-- A dense search returning no hits. -/
def dense0 : String → Nat → List ChunkDict := fun _ _ => []

/-- A cross-encoder scoring every pair 0. -/
def ce0 : String → String → ℚ := fun _ _ => 0

/-- A BM25 scorer giving every indexed document score 1. -/
def bmS1 : List (List String) → List String → List ℚ := fun tok _ => tok.map fun _ => 1

/-- One-chunk store for the cache-sensitivity counterexample. -/
def store9 : List ChunkDict := [exChunk "alpha" "doc" 1]

/-- A stale-size cache (the initial module state). -/
def cacheA : BmCache := {}

/-- A cache whose recorded size matches `store9` but whose cached corpus is a
different document of the same chunk count — the state left behind when a
store of equal size is replaced wholesale (the spec's acknowledged
count-only-invalidation gap). -/
def cacheB : BmCache :=
  { size := 1, index := some [["beta"]], chunks := [exChunk "beta" "old" 2] }

/-- The cache state a rebuild against `store9` produces. -/
def cacheR : BmCache :=
  { size := 1, index := some [["alpha"]], chunks := store9 }

/-- A heap-model cache whose addresses point at the one-dict heap used by the
frame witness. -/
def hc0 : HCache := { size := 1, index := some [["cached"]], addrs := [0] }

/-- Semantic list with a duplicated chunk text for the fusion-payload
counterexample. -/
def semDup : List ChunkDict := [exChunk "t" "X" 1, exChunk "t" "Y" 2]

/-- BM25 list sharing the duplicated text. -/
def bmDup : List ChunkDict := [exChunk "t" "Z" 3]

/-!
Theorems.
-/

/-- C1.  Page-targeted mode: when the query yields page numbers and the store
holds chunks on those pages, `query_rag` returns exactly the fetched chunks,
each with the fixed maximal score 1.0, the mode flag records the
page-targeted branch (so the dense/BM25/fusion/re-rank stages never run) and
the BM25 cache is left untouched; when no chunk lies on the requested pages
it runs the full hybrid pipeline instead. -/
theorem page_targeted_mode (dense : String → Nat → List ChunkDict)
    (ce : String → String → ℚ)
    (bmScores : List (List String) → List String → List ℚ)
    (q : String) (store : List ChunkDict) (c : BmCache)
    (hq : extract_page_numbers q ≠ []) :
    (get_chunks_by_pages store (extract_page_numbers q) ≠ [] →
      query_rag_retrieve dense ce bmScores q store c =
        (((get_chunks_by_pages store (extract_page_numbers q)).map tagMaxScore,
          RMode.pageTargeted), c) ∧
      ∀ e ∈ (get_chunks_by_pages store (extract_page_numbers q)).map tagMaxScore,
        e.rerank_score = some 1) ∧
    (get_chunks_by_pages store (extract_page_numbers q) = [] → store ≠ [] →
      query_rag_retrieve dense ce bmScores q store c =
        (((hybrid_retrieve dense ce bmScores q store c).1, RMode.hybridMode),
          (hybrid_retrieve dense ce bmScores q store c).2)) := by
  constructor
  · intro hfetch
    have hstore : store ≠ [] := by
      intro h
      apply hfetch
      rw [h]
      rfl
    have hlen : ¬ store.length = 0 := by
      simpa [List.length_eq_zero] using hstore
    constructor
    · simp only [query_rag_retrieve, if_neg hlen, if_pos hq, if_pos hfetch]
    · intro e he
      rcases List.mem_map.mp he with ⟨i, _, rfl⟩
      rfl
  · intro hfetch hstore
    have hlen : ¬ store.length = 0 := by
      simpa [List.length_eq_zero] using hstore
    simp only [query_rag_retrieve, if_neg hlen, if_pos hq, hfetch]
    simp

/-- C1 witness: a query naming page 7 against a store holding a page-7 chunk
returns exactly that chunk at score 1.0 in page-targeted mode, and the same
query against a store without page 7 falls through to hybrid mode. -/
theorem page_targeted_mode_witness :
    (extract_page_numbers "page 7" ≠ [] ∧
      get_chunks_by_pages [exChunk "a" "d" 7] (extract_page_numbers "page 7") ≠ [] ∧
      get_chunks_by_pages [exChunk "a" "d" 9] (extract_page_numbers "page 7") = [] ∧
      ([exChunk "a" "d" 9] : List ChunkDict) ≠ []) ∧
    query_rag_retrieve dense0 ce0 bmS1 "page 7" [exChunk "a" "d" 7] cacheA =
      (((get_chunks_by_pages [exChunk "a" "d" 7] (extract_page_numbers "page 7")).map
          tagMaxScore, RMode.pageTargeted), cacheA) ∧
    query_rag_retrieve dense0 ce0 bmS1 "page 7" [exChunk "a" "d" 9] cacheA =
      (((hybrid_retrieve dense0 ce0 bmS1 "page 7" [exChunk "a" "d" 9] cacheA).1,
        RMode.hybridMode),
        (hybrid_retrieve dense0 ce0 bmS1 "page 7" [exChunk "a" "d" 9] cacheA).2) :=
  ⟨⟨by decide, by decide, by decide, by decide⟩,
    ((page_targeted_mode dense0 ce0 bmS1 "page 7" [exChunk "a" "d" 7] cacheA
      (by decide)).1 (by decide)).1,
    (page_targeted_mode dense0 ce0 bmS1 "page 7" [exChunk "a" "d" 9] cacheA
      (by decide)).2 (by decide) (by decide)⟩

/-- C2.  Full-corpus threshold boundary: with no extractable page reference
and a non-empty store, a chunk count of at most 40 returns every stored
chunk at the fixed maximal score 1.0 (cache untouched), and a count of 41 or
more runs the hybrid pipeline. -/
theorem full_corpus_threshold (dense : String → Nat → List ChunkDict)
    (ce : String → String → ℚ)
    (bmScores : List (List String) → List String → List ℚ)
    (q : String) (store : List ChunkDict) (c : BmCache)
    (hq : extract_page_numbers q = []) (hstore : store ≠ []) :
    (store.length ≤ 40 →
      query_rag_retrieve dense ce bmScores q store c =
        ((store.map tagMaxScore, RMode.fullDoc), c) ∧
      ∀ e ∈ store.map tagMaxScore, e.rerank_score = some 1) ∧
    (41 ≤ store.length →
      query_rag_retrieve dense ce bmScores q store c =
        (((hybrid_retrieve dense ce bmScores q store c).1, RMode.hybridMode),
          (hybrid_retrieve dense ce bmScores q store c).2)) := by
  have hlen : ¬ store.length = 0 := by
    simpa [List.length_eq_zero] using hstore
  constructor
  · intro hsmall
    constructor
    · simp only [query_rag_retrieve, if_neg hlen, hq]
      simp [FULL_DOC_CHUNK_THRESHOLD, hsmall]
    · intro e he
      rcases List.mem_map.mp he with ⟨i, _, rfl⟩
      rfl
  · intro hbig
    have : ¬ store.length ≤ FULL_DOC_CHUNK_THRESHOLD := by
      simp only [FULL_DOC_CHUNK_THRESHOLD]
      omega
    simp only [query_rag_retrieve, if_neg hlen, hq]
    simp [this]

/-- C2 witness: a two-chunk store (at most 40) with a page-free query returns
both chunks in full-document mode. -/
theorem full_corpus_threshold_witness :
    (extract_page_numbers "summarise" = [] ∧
      ([exChunk "a" "d" 1, exChunk "b" "d" 2] : List ChunkDict) ≠ [] ∧
      ([exChunk "a" "d" 1, exChunk "b" "d" 2] : List ChunkDict).length ≤ 40) ∧
    query_rag_retrieve dense0 ce0 bmS1 "summarise"
        [exChunk "a" "d" 1, exChunk "b" "d" 2] cacheA =
      ((([exChunk "a" "d" 1, exChunk "b" "d" 2] : List ChunkDict).map tagMaxScore,
        RMode.fullDoc), cacheA) :=
  ⟨⟨by decide, by decide, by decide⟩,
    ((full_corpus_threshold dense0 ce0 bmS1 "summarise"
      [exChunk "a" "d" 1, exChunk "b" "d" 2] cacheA (by decide) (by decide)).1
      (by decide)).1⟩

/-- Helper: the cache state and rebuild flag returned by a sparse search are
exactly the ones produced by `get_bm25_index` (the search itself never
touches the module state again). -/
theorem bm25_search_cache (bmScores : List (List String) → List String → List ℚ)
    (q : String) (top_k : Nat) (store : List ChunkDict) (c : BmCache) :
    (bm25_search bmScores q top_k store c).2 = (get_bm25_index store c).2 := by
  unfold bm25_search
  rcases hidx : get_bm25_index store c with ⟨⟨idx?, chunks⟩, c2, rb⟩
  cases idx? with
  | none => rfl
  | some tok =>
    by_cases hk : min top_k (bmScores tok (pySplit (lowerStr q))).length = 0 <;>
      simp [hk]

/-- Helper: the results of a sparse search, when the index is available, are
the positive-score entries of the top-k index selection. -/
theorem bm25_search_results (bmScores : List (List String) → List String → List ℚ)
    (q : String) (top_k : Nat) (store : List ChunkDict) (c : BmCache)
    (tok : List (List String)) (all_chunks : List ChunkDict)
    (hidx : (get_bm25_index store c).1 = (some tok, all_chunks)) :
    (bm25_search bmScores q top_k store c).1 =
      (bm25TopIdx (bmScores tok (pySplit (lowerStr q)))
        (min top_k (bmScores tok (pySplit (lowerStr q))).length)).filterMap
        (bm25Entry (bmScores tok (pySplit (lowerStr q))) all_chunks) := by
  obtain ⟨p, hful⟩ : ∃ p, get_bm25_index store c = ((some tok, all_chunks), p) :=
    ⟨(get_bm25_index store c).2, by rw [← hidx]⟩
  unfold bm25_search
  rw [hful]
  by_cases hk : min top_k (bmScores tok (pySplit (lowerStr q))).length = 0
  · simp [hk, bm25TopIdx]
  · simp [hk]

/-- Helper: a produced entry records the positive score of its index and the
bm25 provenance tag. -/
theorem bm25Entry_some {scores : List ℚ} {all_chunks : List ChunkDict}
    {idx : Nat} {e : ChunkDict} (h : bm25Entry scores all_chunks idx = some e) :
    e.score = some (scores.getD idx 0) ∧ 0 < scores.getD idx 0 ∧
      e.source = some "bm25" := by
  unfold bm25Entry at h
  by_cases hs : scores.getD idx 0 ≤ 0
  · rw [if_pos hs] at h
    exact Option.noConfusion h
  · rw [if_neg hs] at h
    cases h
    exact ⟨rfl, lt_of_not_le hs, rfl⟩

/-- C5.  BM25 search contract: at most `top_k` results; every result carries
a strictly positive score (non-positive scores are discarded) and the "bm25"
provenance tag; results are sorted non-increasing by score; and every chunk
that is not returned (not selected by the top-k partition, or filtered for a
non-positive score) scores no higher than any — in particular the lowest —
returned result. -/
theorem bm25_search_contract (bmScores : List (List String) → List String → List ℚ)
    (q : String) (top_k : Nat) (store : List ChunkDict) (c : BmCache)
    (tok : List (List String)) (all_chunks : List ChunkDict)
    (hidx : (get_bm25_index store c).1 = (some tok, all_chunks))
    (hlen : (bmScores tok (pySplit (lowerStr q))).length = all_chunks.length) :
    (bm25_search bmScores q top_k store c).1.length ≤ top_k ∧
    (∀ e ∈ (bm25_search bmScores q top_k store c).1,
      0 < e.score.getD 0 ∧ e.source = some "bm25") ∧
    List.Pairwise (fun a b => b.score.getD 0 ≤ a.score.getD 0)
      (bm25_search bmScores q top_k store c).1 ∧
    (∀ i < all_chunks.length,
      (i ∉ bm25TopIdx (bmScores tok (pySplit (lowerStr q)))
          (min top_k (bmScores tok (pySplit (lowerStr q))).length) ∨
        (bmScores tok (pySplit (lowerStr q))).getD i 0 ≤ 0) →
      ∀ e ∈ (bm25_search bmScores q top_k store c).1,
        (bmScores tok (pySplit (lowerStr q))).getD i 0 ≤ e.score.getD 0) := by
  have hres := bm25_search_results bmScores q top_k store c tok all_chunks hidx
  set scores := bmScores tok (pySplit (lowerStr q)) with hscores
  set k := min top_k scores.length with hkdef
  have hselSub : List.Sublist (bm25TopIdx scores k)
      (List.insertionSort (scoreGE scores) (List.range scores.length)) :=
    List.take_sublist _ _
  have hsort : List.Pairwise (scoreGE scores)
      (List.insertionSort (scoreGE scores) (List.range scores.length)) :=
    List.sorted_insertionSort (scoreGE scores) _
  refine ⟨?_, ?_, ?_, ?_⟩
  · rw [hres]
    calc ((bm25TopIdx scores k).filterMap (bm25Entry scores all_chunks)).length
        ≤ (bm25TopIdx scores k).length := List.length_filterMap_le _ _
      _ ≤ k := List.length_take_le k
          (List.insertionSort (scoreGE scores) (List.range scores.length))
      _ ≤ top_k := min_le_left _ _
  · intro e he
    rw [hres] at he
    rcases List.mem_filterMap.mp he with ⟨i, _, hfi⟩
    rcases bm25Entry_some hfi with ⟨h1, h2, h3⟩
    exact ⟨by rw [h1]; exact h2, h3⟩
  · rw [hres]
    refine List.pairwise_filterMap.mpr ?_
    refine (hsort.sublist hselSub).imp ?_
    intro i j hij x hx y hy
    rcases bm25Entry_some (Option.mem_def.mp hx) with ⟨hx1, _, _⟩
    rcases bm25Entry_some (Option.mem_def.mp hy) with ⟨hy1, _, _⟩
    rw [hx1, hy1]
    exact hij
  · intro i hi hcase e he
    rw [hres] at he
    rcases List.mem_filterMap.mp he with ⟨j, hj, hfj⟩
    rcases bm25Entry_some hfj with ⟨h1, h2, _⟩
    rcases hcase with hnotsel | hnonpos
    · have hiR : i ∈ List.insertionSort (scoreGE scores) (List.range scores.length) :=
        (List.perm_insertionSort _ _).mem_iff.mpr
          (List.mem_range.mpr (hlen ▸ hi))
      have hidrop : i ∈ (List.insertionSort (scoreGE scores)
          (List.range scores.length)).drop k := by
        have := List.take_append_drop k
          (List.insertionSort (scoreGE scores) (List.range scores.length))
        rcases List.mem_append.mp (this ▸ hiR) with h | h
        · exact absurd h hnotsel
        · exact h
      have := List.Pairwise.rel_of_mem_take_of_mem_drop hsort hj hidrop
      rw [h1]
      exact this
    · rw [h1]
      exact le_trans hnonpos (le_of_lt h2)

/-- C5 witness: the one-chunk store with the unit scorer satisfies the
index and length hypotheses, and the search returns at most 15 results. -/
theorem bm25_search_contract_witness :
    ((get_bm25_index store9 cacheA).1 = (some [["alpha"]], store9) ∧
      (bmS1 [["alpha"]] (pySplit (lowerStr "q"))).length = store9.length) ∧
    (bm25_search bmS1 "q" 15 store9 cacheA).1.length ≤ 15 :=
  ⟨⟨by decide, by decide⟩,
    (bm25_search_contract bmS1 "q" 15 store9 cacheA [["alpha"]] store9
      (by decide) (by decide)).1⟩

/-- C6.  Sparse-index cache invariant: a sparse search against a non-empty
store rebuilds exactly when the live size differs from the cached size, a
rebuild records the live size and installs the index tokenized (lower-cased,
whitespace-split) from every chunk currently in the store, and a search with
matching size leaves the cache state untouched. -/
theorem bm25_cache_invariant
    (bmScores : List (List String) → List String → List ℚ)
    (q : String) (top_k : Nat) (store : List ChunkDict) (c : BmCache)
    (hstore : store ≠ []) :
    ((bm25_search bmScores q top_k store c).2.2 = true ↔
      (store.length : Int) ≠ c.size) ∧
    (bm25_search bmScores q top_k store c).2.1.size = (store.length : Int) ∧
    ((bm25_search bmScores q top_k store c).2.2 = true →
      (bm25_search bmScores q top_k store c).2.1.chunks = store ∧
      (bm25_search bmScores q top_k store c).2.1.index =
        some (store.map tokenizeDoc)) ∧
    ((bm25_search bmScores q top_k store c).2.2 = false →
      (bm25_search bmScores q top_k store c).2.1 = c) := by
  have hlen : ¬ store.length = 0 := by
    simpa [List.length_eq_zero] using hstore
  have hcache := bm25_search_cache bmScores q top_k store c
  by_cases hsz : (store.length : Int) ≠ c.size
  · have hidx : get_bm25_index store c =
        ((some (store.map tokenizeDoc), store),
          { size := (store.length : Int), index := some (store.map tokenizeDoc),
            chunks := store }, true) := by
      simp only [get_bm25_index, if_neg hlen, if_pos hsz]
    have h21 : (bm25_search bmScores q top_k store c).2.1 =
        { size := (store.length : Int), index := some (store.map tokenizeDoc),
          chunks := store } := by
      rw [show (bm25_search bmScores q top_k store c).2.1 =
          (bm25_search bmScores q top_k store c).2.1 from rfl, hcache, hidx]
    have h22 : (bm25_search bmScores q top_k store c).2.2 = true := by
      rw [show (bm25_search bmScores q top_k store c).2.2 =
          ((bm25_search bmScores q top_k store c).2).2 from rfl, hcache, hidx]
    refine ⟨?_, ?_, ?_, ?_⟩ <;> simp [h21, h22, hsz]
  · have hidx : get_bm25_index store c = ((c.index, c.chunks), c, false) := by
      simp only [get_bm25_index, if_neg hlen, if_neg hsz]
    push_neg at hsz
    have h21 : (bm25_search bmScores q top_k store c).2.1 = c := by
      rw [show (bm25_search bmScores q top_k store c).2.1 =
          ((bm25_search bmScores q top_k store c).2).1 from rfl, hcache, hidx]
    have h22 : (bm25_search bmScores q top_k store c).2.2 = false := by
      rw [show (bm25_search bmScores q top_k store c).2.2 =
          ((bm25_search bmScores q top_k store c).2).2 from rfl, hcache, hidx]
    refine ⟨?_, ?_, ?_, ?_⟩ <;> simp [h21, h22, hsz]

/-- Helper: for every call, the re-ranked list has at most `top_k` entries
and is sorted non-increasing by `rerank_score`. -/
theorem rerank_le_sorted (ce : String → String → ℚ) (q : String)
    (cands : List ChunkDict) (k : Nat) :
    (rerank ce q cands k).1.length ≤ k ∧
    List.Pairwise rerankGE (rerank ce q cands k).1 := by
  unfold rerank
  by_cases h : cands = []
  · simp [h]
  · rw [if_neg h]
    refine ⟨List.length_take_le _ _, ?_⟩
    exact (List.sorted_insertionSort rerankGE _).sublist (List.take_sublist _ _)

/-- C4.  Re-ranker contract: empty candidates return empty without invoking
the cross-encoder; otherwise the model runs, every returned entry carries its
cross-encoder score, at most `top_k` entries are returned, sorted
non-increasing by that score; hence the hybrid pipeline's final list has at
most 5 entries and is sorted non-increasing by `rerank_score`. -/
theorem rerank_contract (dense : String → Nat → List ChunkDict)
    (ce : String → String → ℚ)
    (bmScores : List (List String) → List String → List ℚ)
    (q : String) (store : List ChunkDict) (c : BmCache)
    (cands : List ChunkDict) (k : Nat) :
    (rerank ce q [] k = ([], false)) ∧
    (cands ≠ [] →
      (rerank ce q cands k).2 = true ∧
      (∀ e ∈ (rerank ce q cands k).1, e.rerank_score = some (ce q e.chunk)) ∧
      (rerank ce q cands k).1.length ≤ k ∧
      List.Pairwise rerankGE (rerank ce q cands k).1) ∧
    ((hybrid_retrieve dense ce bmScores q store c).1.length ≤ 5 ∧
      List.Pairwise rerankGE (hybrid_retrieve dense ce bmScores q store c).1) := by
  refine ⟨by simp [rerank], ?_, ?_⟩
  · intro h
    refine ⟨by simp [rerank, h], ?_, (rerank_le_sorted ce q cands k).1,
      (rerank_le_sorted ce q cands k).2⟩
    intro e he
    unfold rerank at he
    rw [if_neg h] at he
    have he2 := List.mem_of_mem_take he
    rw [List.mem_insertionSort] at he2
    rcases List.mem_map.mp he2 with ⟨i, _, rfl⟩
    rfl
  · unfold hybrid_retrieve
    by_cases h : store.length = 0
    · simp [h]
    · rw [if_neg h]
      exact ⟨(rerank_le_sorted ce q _ RERANK_TOP_K).1,
        (rerank_le_sorted ce q _ RERANK_TOP_K).2⟩

/-- C4 witness: a concrete two-candidate call runs the model, and a concrete
hybrid call returns at most 5 sorted results. -/
theorem rerank_contract_witness :
    (([exChunk "a" "d" 1, exChunk "b" "d" 2] : List ChunkDict) ≠ []) ∧
    (rerank ce0 "q" [exChunk "a" "d" 1, exChunk "b" "d" 2] 5).2 = true ∧
    (hybrid_retrieve dense0 ce0 bmS1 "q" store9 cacheA).1.length ≤ 5 :=
  ⟨by decide,
    ((rerank_contract dense0 ce0 bmS1 "q" store9 cacheA
      [exChunk "a" "d" 1, exChunk "b" "d" 2] 5).2.1 (by decide)).1,
    (rerank_contract dense0 ce0 bmS1 "q" store9 cacheA
      [exChunk "a" "d" 1, exChunk "b" "d" 2] 5).2.2.1⟩

/-- Helper: reading the scores dict after `scores[t] = scores.get(t, 0) + d`:
the queried key gains d, every other key is unchanged. -/
theorem getVal_updAdd (l : List (String × ℚ)) (t u : String) (d : ℚ) :
    getVal (updAdd l t d) u = getVal l u + (if u = t then d else 0) := by
  induction l with
  | nil =>
    simp only [updAdd, getVal]
    rcases eq_or_ne u t with h | h
    · subst h; simp
    · rw [if_neg h, if_neg fun hh => h hh.symm]; simp
  | cons p r ih =>
    rcases p with ⟨k, v⟩
    simp only [updAdd]
    by_cases hk : k = t
    · subst hk
      simp only [if_pos rfl, getVal]
      by_cases hu : k = u
      · subst hu; simp
      · rw [if_neg hu, if_neg hu, if_neg fun hh => hu hh.symm]; simp
    · rw [if_neg hk]
      simp only [getVal]
      by_cases hu : k = u
      · subst hu
        rw [if_pos rfl, if_pos rfl, if_neg hk]
        simp
      · rw [if_neg hu, if_neg hu]
        exact ih

/-- Helper: the semantic accumulation loop adds exactly the summed semantic
contributions of the remaining list to every key of the scores dict. -/
theorem getVal_rrfLoopSem (k : Nat) (l : List ChunkDict) :
    ∀ (sc : List (String × ℚ)) (cm : List (String × ChunkDict)) (rank : Nat)
      (t : String),
    getVal (rrfLoopSem k (sc, cm) rank l).1 t =
      getVal sc t + sumContrib SEMANTIC_WEIGHT k rank l t := by
  induction l with
  | nil => intro sc cm rank t; simp [rrfLoopSem, sumContrib]
  | cons d rest ih =>
    intro sc cm rank t
    simp only [rrfLoopSem, sumContrib]
    rw [ih, getVal_updAdd]
    rcases eq_or_ne t d.chunk with h | h
    · rw [if_pos h, if_pos h.symm]; ring
    · rw [if_neg h, if_neg fun hh => h hh.symm]; ring

/-- Helper: the bm25 accumulation loop adds exactly the summed bm25
contributions of the remaining list to every key of the scores dict. -/
theorem getVal_rrfLoopBm (k : Nat) (l : List ChunkDict) :
    ∀ (sc : List (String × ℚ)) (cm : List (String × ChunkDict)) (rank : Nat)
      (t : String),
    getVal (rrfLoopBm k (sc, cm) rank l).1 t =
      getVal sc t + sumContrib BM25_WEIGHT k rank l t := by
  induction l with
  | nil => intro sc cm rank t; simp [rrfLoopBm, sumContrib]
  | cons d rest ih =>
    intro sc cm rank t
    simp only [rrfLoopBm, sumContrib]
    rw [ih, getVal_updAdd]
    rcases eq_or_ne t d.chunk with h | h
    · rw [if_pos h, if_pos h.symm]; ring
    · rw [if_neg h, if_neg fun hh => h hh.symm]; ring

/-- Helper: a text absent from a list receives no contribution from it. -/
theorem sumContrib_of_not_mem (w : ℚ) (k : Nat) (l : List ChunkDict) (t : String)
    (h : t ∉ l.map fun d => d.chunk) :
    ∀ rank, sumContrib w k rank l t = 0 := by
  induction l with
  | nil => intro rank; rfl
  | cons d rest ih =>
    intro rank
    simp only [List.map_cons, List.mem_cons, not_or] at h
    have hd : ¬ d.chunk = t := fun hh => h.1 hh.symm
    simp only [sumContrib, if_neg hd, ih h.2 (rank + 1)]
    ring

/-- Helper: `findRank` is `none` exactly for texts not in the list. -/
theorem findRank_eq_none (l : List ChunkDict) (t : String) :
    findRank l t = none ↔ t ∉ l.map fun d => d.chunk := by
  induction l with
  | nil => simp [findRank]
  | cons d rest ih =>
    by_cases hd : d.chunk = t
    · simp only [findRank, if_pos hd, List.map_cons]
      constructor
      · intro h; exact Option.noConfusion h
      · intro h
        exact absurd (hd ▸ List.mem_cons_self d.chunk (rest.map fun d => d.chunk)) h
    · simp only [findRank, if_neg hd, List.map_cons, List.mem_cons]
      rw [Option.map_eq_none', ih]
      constructor
      · rintro h (h1 | h2)
        · exact hd h1.symm
        · exact h h2
      · intro h h2
        exact h (Or.inr h2)

/-- Helper: on a duplicate-free list the summed contribution of a text at
rank r is exactly w / (k + rank + r + 1). -/
theorem sumContrib_of_findRank (w : ℚ) (k : Nat) (l : List ChunkDict)
    (t : String) :
    ∀ (r rank : Nat), (l.map fun d => d.chunk).Nodup → findRank l t = some r →
    sumContrib w k rank l t = w / ((k : ℚ) + (rank : ℚ) + (r : ℚ) + 1) := by
  induction l with
  | nil => intro r rank _ h; exact Option.noConfusion h
  | cons d rest ih =>
    intro r rank hnd h
    simp only [List.map_cons, List.nodup_cons] at hnd
    by_cases hd : d.chunk = t
    · rw [findRank, if_pos hd] at h
      cases h
      have hnot : t ∉ rest.map fun d => d.chunk := hd ▸ hnd.1
      simp only [sumContrib, if_pos hd, sumContrib_of_not_mem w k rest t hnot]
      push_cast
      ring
    · rw [findRank, if_neg hd] at h
      rcases Option.map_eq_some'.mp h with ⟨r2, hr2, rfl⟩
      simp only [sumContrib, if_neg hd, ih r2 (rank + 1) hnd.2 hr2]
      push_cast
      ring

/-- Helper: for duplicate-free lists the loop contribution collapses to the
spec's rank formula. -/
theorem sumContrib_eq_contrib (w : ℚ) (l : List ChunkDict) (t : String)
    (hnd : (l.map fun d => d.chunk).Nodup) :
    sumContrib w 60 0 l t = contrib w l t := by
  cases h : findRank l t with
  | none =>
    rw [sumContrib_of_not_mem w 60 l t ((findRank_eq_none l t).mp h) 0]
    simp [contrib, h]
  | some r =>
    rw [sumContrib_of_findRank w 60 l t r 0 hnd h]
    simp only [contrib, h]
    norm_num

/-- Helper: key membership after a scores-dict update. -/
theorem mem_keys_updAdd (sc : List (String × ℚ)) (u t : String) (d : ℚ) :
    (t ∈ (updAdd sc u d).map Prod.fst) ↔ t ∈ sc.map Prod.fst ∨ t = u := by
  induction sc with
  | nil => simp [updAdd]
  | cons p r ih =>
    rcases p with ⟨k, v⟩
    by_cases hk : k = u
    · subst hk
      simp only [updAdd]
      simp only [if_true]
      simp only [List.map_cons, List.mem_cons]
      tauto
    · simp only [updAdd]
      rw [if_neg hk]
      simp only [List.map_cons, List.mem_cons, ih]
      tauto

/-- Helper: key membership after a chunk-map overwrite. -/
theorem mem_keys_mapPut (cm : List (String × ChunkDict)) (u t : String)
    (d : ChunkDict) :
    (t ∈ (mapPut cm u d).map Prod.fst) ↔ t ∈ cm.map Prod.fst ∨ t = u := by
  induction cm with
  | nil => simp [mapPut]
  | cons p r ih =>
    rcases p with ⟨k, v⟩
    by_cases hk : k = u
    · subst hk
      simp only [mapPut]
      simp only [if_true]
      simp only [List.map_cons, List.mem_cons]
      tauto
    · simp only [mapPut]
      rw [if_neg hk]
      simp only [List.map_cons, List.mem_cons, ih]
      tauto

/-- Helper: key membership after a conditional chunk-map insert. -/
theorem mem_keys_mapPutNew (cm : List (String × ChunkDict)) (u t : String)
    (d : ChunkDict) :
    (t ∈ (mapPutNew cm u d).map Prod.fst) ↔ t ∈ cm.map Prod.fst ∨ t = u := by
  induction cm with
  | nil => simp [mapPutNew]
  | cons p r ih =>
    rcases p with ⟨k, v⟩
    by_cases hk : k = u
    · subst hk
      simp only [mapPutNew]
      simp only [if_true]
      simp only [List.map_cons, List.mem_cons]
      tauto
    · simp only [mapPutNew]
      rw [if_neg hk]
      simp only [List.map_cons, List.mem_cons, ih]
      tauto

/-- Helper: the scores keys after the semantic loop are the starting keys
plus the processed texts. -/
theorem mem_keys_rrfLoopSem (k : Nat) (l : List ChunkDict) :
    ∀ (sc : List (String × ℚ)) (cm : List (String × ChunkDict)) (rank : Nat)
      (t : String),
    (t ∈ (rrfLoopSem k (sc, cm) rank l).1.map Prod.fst) ↔
      t ∈ sc.map Prod.fst ∨ t ∈ l.map fun d => d.chunk := by
  induction l with
  | nil => intro sc cm rank t; simp [rrfLoopSem]
  | cons d rest ih =>
    intro sc cm rank t
    simp only [rrfLoopSem, ih, mem_keys_updAdd, List.map_cons, List.mem_cons]
    tauto

/-- Helper: the scores keys after the bm25 loop are the starting keys plus
the processed texts. -/
theorem mem_keys_rrfLoopBm (k : Nat) (l : List ChunkDict) :
    ∀ (sc : List (String × ℚ)) (cm : List (String × ChunkDict)) (rank : Nat)
      (t : String),
    (t ∈ (rrfLoopBm k (sc, cm) rank l).1.map Prod.fst) ↔
      t ∈ sc.map Prod.fst ∨ t ∈ l.map fun d => d.chunk := by
  induction l with
  | nil => intro sc cm rank t; simp [rrfLoopBm]
  | cons d rest ih =>
    intro sc cm rank t
    simp only [rrfLoopBm, ih, mem_keys_updAdd, List.map_cons, List.mem_cons]
    tauto

/-- Helper: the texts carried by the scores dict of the fused state are
exactly the texts of the two input lists. -/
theorem mem_keys_fusionState (sem bm : List ChunkDict) (k : Nat) (t : String) :
    (t ∈ (fusionState sem bm k).1.map Prod.fst) ↔
      (t ∈ sem.map fun d => d.chunk) ∨ t ∈ bm.map fun d => d.chunk := by
  unfold fusionState
  rw [show rrfLoopSem k ([], []) 0 sem =
      ((rrfLoopSem k ([], []) 0 sem).1, (rrfLoopSem k ([], []) 0 sem).2) from rfl]
  rw [mem_keys_rrfLoopBm, mem_keys_rrfLoopSem]
  simp

/-- Helper: every value of the chunk map after a put keyed by its own text
still records its key as its text. -/
theorem mapInv_mapPut (cm : List (String × ChunkDict)) (d : ChunkDict)
    (hinv : ∀ p ∈ cm, (p.2).chunk = p.1) :
    ∀ p ∈ mapPut cm d.chunk d, (p.2).chunk = p.1 := by
  induction cm with
  | nil =>
    intro p hp
    rcases List.mem_singleton.mp hp with rfl
    rfl
  | cons q r ih =>
    rcases q with ⟨key, v⟩
    intro p hp
    by_cases hk : key = d.chunk
    · rw [mapPut, if_pos hk] at hp
      rcases List.mem_cons.mp hp with rfl | hmem
      · exact hk ▸ rfl
      · exact hinv p (List.mem_cons_of_mem _ hmem)
    · rw [mapPut, if_neg hk] at hp
      rcases List.mem_cons.mp hp with rfl | hmem
      · exact hinv _ (List.mem_cons_self _ _)
      · exact ih (fun p2 hp2 => hinv p2 (List.mem_cons_of_mem _ hp2)) p hmem

/-- Helper: same for the conditional insert. -/
theorem mapInv_mapPutNew (cm : List (String × ChunkDict)) (d : ChunkDict)
    (hinv : ∀ p ∈ cm, (p.2).chunk = p.1) :
    ∀ p ∈ mapPutNew cm d.chunk d, (p.2).chunk = p.1 := by
  induction cm with
  | nil =>
    intro p hp
    rcases List.mem_singleton.mp hp with rfl
    rfl
  | cons q r ih =>
    rcases q with ⟨key, v⟩
    intro p hp
    by_cases hk : key = d.chunk
    · rw [mapPutNew, if_pos hk] at hp
      exact hinv p hp
    · rw [mapPutNew, if_neg hk] at hp
      rcases List.mem_cons.mp hp with rfl | hmem
      · exact hinv _ (List.mem_cons_self _ _)
      · exact ih (fun p2 hp2 => hinv p2 (List.mem_cons_of_mem _ hp2)) p hmem

/-- Helper: the chunk-map invariant holds after the semantic loop. -/
theorem mapInv_rrfLoopSem (k : Nat) (l : List ChunkDict) :
    ∀ (sc : List (String × ℚ)) (cm : List (String × ChunkDict)) (rank : Nat),
    (∀ p ∈ cm, (p.2).chunk = p.1) →
    ∀ p ∈ (rrfLoopSem k (sc, cm) rank l).2, (p.2).chunk = p.1 := by
  induction l with
  | nil => intro sc cm rank hinv; exact hinv
  | cons d rest ih =>
    intro sc cm rank hinv
    exact ih _ _ (rank + 1) (mapInv_mapPut cm d hinv)

/-- Helper: the chunk-map invariant holds after the bm25 loop. -/
theorem mapInv_rrfLoopBm (k : Nat) (l : List ChunkDict) :
    ∀ (sc : List (String × ℚ)) (cm : List (String × ChunkDict)) (rank : Nat),
    (∀ p ∈ cm, (p.2).chunk = p.1) →
    ∀ p ∈ (rrfLoopBm k (sc, cm) rank l).2, (p.2).chunk = p.1 := by
  induction l with
  | nil => intro sc cm rank hinv; exact hinv
  | cons d rest ih =>
    intro sc cm rank hinv
    exact ih _ _ (rank + 1) (mapInv_mapPutNew cm d hinv)

/-- Helper: looking up a present key of an invariant-satisfying chunk map
returns a dict whose text is that key. -/
theorem mapGet_chunk (cm : List (String × ChunkDict))
    (hinv : ∀ p ∈ cm, (p.2).chunk = p.1) (t : String)
    (ht : t ∈ cm.map Prod.fst) : (mapGet cm t).chunk = t := by
  induction cm with
  | nil => simp at ht
  | cons q r ih =>
    rcases q with ⟨key, v⟩
    by_cases hk : key = t
    · rw [mapGet, if_pos hk]
      exact hk ▸ hinv (key, v) (List.mem_cons_self _ _)
    · rw [mapGet, if_neg hk]
      rcases List.mem_cons.mp ht with h | h
      · exact absurd h.symm hk
      · exact ih (fun p hp => hinv p (List.mem_cons_of_mem _ hp)) h

/-- Helper: keys of the sem-loop chunk map coincide with keys of its scores
dict when they start equal, and similarly for the bm loop; stated directly
for the fused state: the chunk map holds every scores key. -/
theorem keys_rrfLoopSem (k : Nat) (l : List ChunkDict) :
    ∀ (sc : List (String × ℚ)) (cm : List (String × ChunkDict)) (rank : Nat)
      (t : String),
    (t ∈ (rrfLoopSem k (sc, cm) rank l).2.map Prod.fst) ↔
      t ∈ cm.map Prod.fst ∨ t ∈ l.map fun d => d.chunk := by
  induction l with
  | nil => intro sc cm rank t; simp [rrfLoopSem]
  | cons d rest ih =>
    intro sc cm rank t
    simp only [rrfLoopSem, ih, mem_keys_mapPut, List.map_cons, List.mem_cons]
    tauto

/-- Helper: key membership of the bm-loop chunk map. -/
theorem keys_rrfLoopBm (k : Nat) (l : List ChunkDict) :
    ∀ (sc : List (String × ℚ)) (cm : List (String × ChunkDict)) (rank : Nat)
      (t : String),
    (t ∈ (rrfLoopBm k (sc, cm) rank l).2.map Prod.fst) ↔
      t ∈ cm.map Prod.fst ∨ t ∈ l.map fun d => d.chunk := by
  induction l with
  | nil => intro sc cm rank t; simp [rrfLoopBm]
  | cons d rest ih =>
    intro sc cm rank t
    simp only [rrfLoopBm, ih, mem_keys_mapPutNew, List.map_cons, List.mem_cons]
    tauto

/-- Helper: the chunk map of the fused state keys exactly the input texts. -/
theorem mem_keys_fusionState_map (sem bm : List ChunkDict) (k : Nat)
    (t : String) :
    (t ∈ (fusionState sem bm k).2.map Prod.fst) ↔
      (t ∈ sem.map fun d => d.chunk) ∨ t ∈ bm.map fun d => d.chunk := by
  unfold fusionState
  rw [show rrfLoopSem k ([], []) 0 sem =
      ((rrfLoopSem k ([], []) 0 sem).1, (rrfLoopSem k ([], []) 0 sem).2) from rfl]
  rw [keys_rrfLoopBm, keys_rrfLoopSem]
  simp

/-- Helper: the chunk map of the fused state satisfies the key invariant. -/
theorem mapInv_fusionState (sem bm : List ChunkDict) (k : Nat) :
    ∀ p ∈ (fusionState sem bm k).2, (p.2).chunk = p.1 := by
  unfold fusionState
  rw [show rrfLoopSem k ([], []) 0 sem =
      ((rrfLoopSem k ([], []) 0 sem).1, (rrfLoopSem k ([], []) 0 sem).2) from rfl]
  exact mapInv_rrfLoopBm k bm _ _ 0
    (mapInv_rrfLoopSem k sem [] [] 0 (by intro p hp; simp at hp))

/-- Helper: every fused entry is the mapped copy of a scores key, carrying
that key as its text. -/
theorem mem_fusion (sem bm : List ChunkDict) (k : Nat) :
    ∀ e ∈ reciprocal_rank_fusion sem bm k,
    ∃ t, t ∈ (fusionState sem bm k).1.map Prod.fst ∧
      e = { mapGet (fusionState sem bm k).2 t with
              rrf_score := some (getVal (fusionState sem bm k).1 t) } ∧
      e.chunk = t := by
  intro e he
  unfold reciprocal_rank_fusion at he
  rcases List.mem_map.mp he with ⟨t, ht, rfl⟩
  rw [List.mem_insertionSort] at ht
  refine ⟨t, ht, rfl, ?_⟩
  show (mapGet (fusionState sem bm k).2 t).chunk = t
  refine mapGet_chunk _ (mapInv_fusionState sem bm k) t ?_
  rw [mem_keys_fusionState_map]
  rw [mem_keys_fusionState] at ht
  exact ht

/-- Helper: the fused score dict carries, for every text, the sum of its
semantic and bm25 loop contributions. -/
theorem fused_score_eq (sem bm : List ChunkDict) (t : String) :
    getVal (fusionState sem bm 60).1 t =
      sumContrib SEMANTIC_WEIGHT 60 0 sem t + sumContrib BM25_WEIGHT 60 0 bm t := by
  unfold fusionState
  rw [show rrfLoopSem 60 ([], []) 0 sem =
      ((rrfLoopSem 60 ([], []) 0 sem).1, (rrfLoopSem 60 ([], []) 0 sem).2) from rfl]
  rw [getVal_rrfLoopBm, getVal_rrfLoopSem]
  show getVal [] t + _ + _ = _
  rw [getVal]
  ring

/-- C3.  Reciprocal rank fusion score and consensus boost: every fused
entry's `rrf_score` is the sum, over the input lists containing its text, of
weight / (K + rank + 1) with K = 60, semantic weight 0.7, bm25 weight 0.3 and
rank the 0-based position in that list (input lists assumed duplicate-free,
as ranked search outputs are); and a chunk appearing in both lists scores
strictly more than a chunk appearing, in any candidate-list pair, in only
one list at the equivalent rank position. -/
theorem rrf_score_formula_and_consensus (sem bm : List ChunkDict)
    (hsem : (sem.map fun d => d.chunk).Nodup)
    (hbm : (bm.map fun d => d.chunk).Nodup) :
    (∀ e ∈ reciprocal_rank_fusion sem bm 60,
      e.rrf_score = some (fusionScore sem bm e.chunk)) ∧
    (∀ (sem2 bm2 : List ChunkDict) (t u : String) (r1 r2 : Nat),
      findRank sem t = some r1 → findRank bm t = some r2 →
      ((findRank sem2 u = some r1 ∧ findRank bm2 u = none) ∨
        (findRank bm2 u = some r2 ∧ findRank sem2 u = none)) →
      fusionScore sem2 bm2 u < fusionScore sem bm t) := by
  constructor
  · intro e he
    rcases mem_fusion sem bm 60 e he with ⟨t, htk, he2, hchunk⟩
    subst he2
    rw [hchunk]
    show some (getVal (fusionState sem bm 60).1 t) = _
    rw [fused_score_eq, sumContrib_eq_contrib SEMANTIC_WEIGHT sem t hsem,
      sumContrib_eq_contrib BM25_WEIGHT bm t hbm]
    rfl
  · intro sem2 bm2 t u r1 r2 h1 h2 hcase
    have hc1 : contrib SEMANTIC_WEIGHT sem t =
        SEMANTIC_WEIGHT / (60 + (r1 : ℚ) + 1) := by simp [contrib, h1]
    have hc2 : contrib BM25_WEIGHT bm t =
        BM25_WEIGHT / (60 + (r2 : ℚ) + 1) := by simp [contrib, h2]
    have hsempos : (0 : ℚ) < SEMANTIC_WEIGHT / (60 + (r1 : ℚ) + 1) := by
      apply div_pos
      · norm_num [SEMANTIC_WEIGHT]
      · positivity
    have hbmpos : (0 : ℚ) < BM25_WEIGHT / (60 + (r2 : ℚ) + 1) := by
      apply div_pos
      · norm_num [BM25_WEIGHT]
      · positivity
    rcases hcase with ⟨ha, hb⟩ | ⟨ha, hb⟩
    · have hu : fusionScore sem2 bm2 u = SEMANTIC_WEIGHT / (60 + (r1 : ℚ) + 1) := by
        simp [fusionScore, contrib, ha, hb]
      rw [hu, fusionScore, hc1, hc2]
      linarith
    · have hu : fusionScore sem2 bm2 u = BM25_WEIGHT / (60 + (r2 : ℚ) + 1) := by
        simp [fusionScore, contrib, ha, hb]
      rw [hu, fusionScore, hc1, hc2]
      linarith

/-- C3 witness: with sem = [t, u] and bm = [t], every fused entry carries the
formula score, and the consensus chunk t (in both lists at rank 0) beats a
chunk u appearing only in a semantic list at the same rank 0. -/
theorem rrf_score_formula_and_consensus_witness :
    ((([exChunk "t" "d" 1, exChunk "u" "d" 2].map fun d => d.chunk).Nodup ∧
      (([exChunk "t" "d" 1] : List ChunkDict).map fun d => d.chunk).Nodup ∧
      findRank [exChunk "t" "d" 1, exChunk "u" "d" 2] "t" = some 0 ∧
      findRank [exChunk "t" "d" 1] "t" = some 0 ∧
      findRank [exChunk "u" "x" 1] "u" = some 0 ∧
      findRank ([] : List ChunkDict) "u" = none) ∧
    fusionScore [exChunk "u" "x" 1] [] "u" <
      fusionScore [exChunk "t" "d" 1, exChunk "u" "d" 2] [exChunk "t" "d" 1] "t") ∧
    ∀ e ∈ reciprocal_rank_fusion [exChunk "t" "d" 1, exChunk "u" "d" 2]
        [exChunk "t" "d" 1] 60,
      e.rrf_score = some (fusionScore [exChunk "t" "d" 1, exChunk "u" "d" 2]
        [exChunk "t" "d" 1] e.chunk) :=
  ⟨⟨⟨by decide, by decide, by decide, by decide, by decide, by decide⟩,
    (rrf_score_formula_and_consensus [exChunk "t" "d" 1, exChunk "u" "d" 2]
      [exChunk "t" "d" 1] (by decide) (by decide)).2 [exChunk "u" "x" 1] []
      "t" "u" 0 0 (by decide) (by decide) (Or.inl ⟨by decide, by decide⟩)⟩,
    (rrf_score_formula_and_consensus [exChunk "t" "d" 1, exChunk "u" "d" 2]
      [exChunk "t" "d" 1] (by decide) (by decide)).1⟩

/-- Helper: the key list after a scores-dict update — unchanged for a present
key, appended otherwise. -/
theorem keysEq_updAdd (sc : List (String × ℚ)) (t : String) (d : ℚ) :
    (updAdd sc t d).map Prod.fst =
      if t ∈ sc.map Prod.fst then sc.map Prod.fst else sc.map Prod.fst ++ [t] := by
  induction sc with
  | nil => simp [updAdd]
  | cons p r ih =>
    rcases p with ⟨k, v⟩
    by_cases hk : k = t
    · subst hk
      simp only [updAdd, if_true, List.map_cons]
      rw [if_pos (List.mem_cons_self _ _)]
    · simp only [updAdd]
      rw [if_neg hk]
      simp only [List.map_cons, ih]
      by_cases hr : t ∈ r.map Prod.fst
      · rw [if_pos hr, if_pos (List.mem_cons_of_mem _ hr)]
      · rw [if_neg hr, if_neg ?_, List.cons_append]
        intro h
        rcases List.mem_cons.mp h with h1 | h2
        · exact hk h1.symm
        · exact hr h2

/-- Helper: the scores keys stay duplicate-free under updates. -/
theorem nodup_keys_updAdd (sc : List (String × ℚ)) (t : String) (d : ℚ)
    (h : (sc.map Prod.fst).Nodup) : ((updAdd sc t d).map Prod.fst).Nodup := by
  rw [keysEq_updAdd]
  by_cases ht : t ∈ sc.map Prod.fst
  · rw [if_pos ht]; exact h
  · rw [if_neg ht]
    simp [List.nodup_append, h, ht]

/-- Helper: scores keys stay duplicate-free through the semantic loop. -/
theorem nodup_keys_rrfLoopSem (k : Nat) (l : List ChunkDict) :
    ∀ (sc : List (String × ℚ)) (cm : List (String × ChunkDict)) (rank : Nat),
    (sc.map Prod.fst).Nodup → ((rrfLoopSem k (sc, cm) rank l).1.map Prod.fst).Nodup := by
  induction l with
  | nil => intro sc cm rank h; exact h
  | cons d rest ih =>
    intro sc cm rank h
    exact ih _ _ (rank + 1) (nodup_keys_updAdd sc d.chunk _ h)

/-- Helper: scores keys stay duplicate-free through the bm25 loop. -/
theorem nodup_keys_rrfLoopBm (k : Nat) (l : List ChunkDict) :
    ∀ (sc : List (String × ℚ)) (cm : List (String × ChunkDict)) (rank : Nat),
    (sc.map Prod.fst).Nodup → ((rrfLoopBm k (sc, cm) rank l).1.map Prod.fst).Nodup := by
  induction l with
  | nil => intro sc cm rank h; exact h
  | cons d rest ih =>
    intro sc cm rank h
    exact ih _ _ (rank + 1) (nodup_keys_updAdd sc d.chunk _ h)

/-- Helper: the fused state's scores keys are duplicate-free. -/
theorem nodup_keys_fusionState (sem bm : List ChunkDict) (k : Nat) :
    ((fusionState sem bm k).1.map Prod.fst).Nodup := by
  unfold fusionState
  rw [show rrfLoopSem k ([], []) 0 sem =
      ((rrfLoopSem k ([], []) 0 sem).1, (rrfLoopSem k ([], []) 0 sem).2) from rfl]
  exact nodup_keys_rrfLoopBm k bm _ _ 0
    (nodup_keys_rrfLoopSem k sem [] [] 0 (by simp))

/-- Helper: overwriting a key makes lookup return the new dict. -/
theorem mapGet_mapPut_self (cm : List (String × ChunkDict)) (t : String)
    (d : ChunkDict) : mapGet (mapPut cm t d) t = d := by
  induction cm with
  | nil => simp [mapPut, mapGet]
  | cons p r ih =>
    rcases p with ⟨k, v⟩
    by_cases hk : k = t
    · subst hk
      simp only [mapPut, if_true]
      rw [mapGet, if_pos rfl]
    · simp only [mapPut]
      rw [if_neg hk, mapGet, if_neg hk]
      exact ih

/-- Helper: overwriting one key leaves lookups of other keys unchanged. -/
theorem mapGet_mapPut_other (cm : List (String × ChunkDict)) (t u : String)
    (d : ChunkDict) (h : u ≠ t) : mapGet (mapPut cm t d) u = mapGet cm u := by
  induction cm with
  | nil =>
    simp only [mapPut, mapGet]
    rw [if_neg fun hh => h hh.symm]
  | cons p r ih =>
    rcases p with ⟨k, v⟩
    by_cases hk : k = t
    · subst hk
      simp only [mapPut, if_true]
      rw [mapGet, mapGet, if_neg fun hh => h hh.symm,
        if_neg fun hh => h hh.symm]
    · simp only [mapPut]
      rw [if_neg hk, mapGet, mapGet]
      by_cases hu : k = u
      · rw [if_pos hu, if_pos hu]
      · rw [if_neg hu, if_neg hu]
        exact ih

/-- Helper: a conditional insert never changes the lookup of a present key. -/
theorem mapGet_mapPutNew_of_mem (cm : List (String × ChunkDict)) (t u : String)
    (d : ChunkDict) (h : t ∈ cm.map Prod.fst) :
    mapGet (mapPutNew cm u d) t = mapGet cm t := by
  induction cm with
  | nil => simp at h
  | cons p r ih =>
    rcases p with ⟨k, v⟩
    by_cases hk : k = u
    · subst hk
      simp only [mapPutNew, if_true]
    · simp only [mapPutNew]
      rw [if_neg hk, mapGet, mapGet]
      by_cases ht : k = t
      · rw [if_pos ht, if_pos ht]
      · rw [if_neg ht, if_neg ht]
        refine ih ?_
        rcases List.mem_cons.mp h with h1 | h2
        · exact absurd h1.symm ht
        · exact h2

/-- Helper: a conditional insert of an absent key makes its lookup return the
inserted dict. -/
theorem mapGet_mapPutNew_self (cm : List (String × ChunkDict)) (t : String)
    (d : ChunkDict) (h : t ∉ cm.map Prod.fst) :
    mapGet (mapPutNew cm t d) t = d := by
  induction cm with
  | nil => simp [mapPutNew, mapGet]
  | cons p r ih =>
    rcases p with ⟨k, v⟩
    have hk : ¬ k = t := by
      intro hh
      exact h (List.mem_cons.mpr (Or.inl hh.symm))
    simp only [mapPutNew]
    rw [if_neg hk, mapGet, if_neg hk]
    exact ih fun hh => h (List.mem_cons.mpr (Or.inr hh))

/-- Helper: a conditional insert under a different key leaves a lookup
unchanged. -/
theorem mapGet_mapPutNew_other (cm : List (String × ChunkDict)) (t u : String)
    (d : ChunkDict) (h : t ≠ u) : mapGet (mapPutNew cm u d) t = mapGet cm t := by
  induction cm with
  | nil =>
    simp only [mapPutNew, mapGet]
    rw [if_neg fun hh => h hh.symm]
  | cons p r ih =>
    rcases p with ⟨k, v⟩
    by_cases hk : k = u
    · subst hk
      simp only [mapPutNew, if_true]
    · simp only [mapPutNew]
      rw [if_neg hk, mapGet, mapGet]
      by_cases ht : k = t
      · rw [if_pos ht, if_pos ht]
      · rw [if_neg ht, if_neg ht]
        exact ih

/-- Helper: the last element of a nonempty cons. -/
theorem getLast?_cons_eq {α : Type} (x : α) (xs : List α) :
    (x :: xs).getLast? = some (xs.getLast?.getD x) := by
  induction xs generalizing x with
  | nil => rfl
  | cons y ys ih =>
    rw [List.getLast?_cons_cons, ih y]
    cases h : ys.getLast? with
    | none => simp [ih, h]
    | some z => simp [ih, h]

/-- Helper: after the semantic loop, `chunk_map[t]` holds the last semantic
occurrence of t, or keeps its previous binding if t never occurred. -/
theorem mapGet_rrfLoopSem (k : Nat) (l : List ChunkDict) :
    ∀ (sc : List (String × ℚ)) (cm : List (String × ChunkDict)) (rank : Nat)
      (t : String),
    mapGet (rrfLoopSem k (sc, cm) rank l).2 t =
      ((l.filter fun d => d.chunk = t).getLast?).getD (mapGet cm t) := by
  induction l with
  | nil => intro sc cm rank t; rfl
  | cons d rest ih =>
    intro sc cm rank t
    simp only [rrfLoopSem, List.filter_cons]
    rw [ih]
    by_cases hd : d.chunk = t
    · rw [if_pos (by simpa using hd)]
      rw [getLast?_cons_eq]
      cases h : (rest.filter fun d => d.chunk = t).getLast? with
      | none =>
        simp only [h, Option.getD_none, Option.getD_some]
        rw [← hd]
        exact mapGet_mapPut_self cm d.chunk d
      | some z => simp [h]
    · rw [if_neg (by simpa using hd)]
      rw [mapGet_mapPut_other cm d.chunk t d fun hh => hd hh.symm]

/-- Helper: after the bm25 loop, a key already in `chunk_map` keeps its
binding; a new key gets the first bm25 occurrence of its text. -/
theorem mapGet_rrfLoopBm (k : Nat) (l : List ChunkDict) :
    ∀ (sc : List (String × ℚ)) (cm : List (String × ChunkDict)) (rank : Nat)
      (t : String),
    mapGet (rrfLoopBm k (sc, cm) rank l).2 t =
      if t ∈ cm.map Prod.fst then mapGet cm t
      else ((l.filter fun d => d.chunk = t).head?).getD (mapGet cm t) := by
  induction l with
  | nil =>
    intro sc cm rank t
    by_cases ht : t ∈ cm.map Prod.fst
    · rw [rrfLoopBm, if_pos ht]
    · rw [rrfLoopBm, if_neg ht]
      rfl
  | cons d rest ih =>
    intro sc cm rank t
    simp only [rrfLoopBm, List.filter_cons]
    rw [ih]
    by_cases ht : t ∈ cm.map Prod.fst
    · rw [if_pos ((mem_keys_mapPutNew cm d.chunk t d).mpr (Or.inl ht)),
        if_pos ht, mapGet_mapPutNew_of_mem cm t d.chunk d ht]
    · by_cases hd : d.chunk = t
      · rw [if_pos ((mem_keys_mapPutNew cm d.chunk t d).mpr (Or.inr hd.symm)),
          if_neg ht]
        rw [if_pos (by simpa using hd)]
        simp only [List.head?_cons, Option.getD_some]
        rw [← hd]
        exact mapGet_mapPutNew_self cm d.chunk d (by rw [hd]; exact ht)
      · rw [if_neg ?_, if_neg ht, if_neg (by simpa using hd),
          mapGet_mapPutNew_other cm t d.chunk d fun hh => hd hh.symm]
        intro h
        rcases (mem_keys_mapPutNew cm d.chunk t d).mp h with h1 | h2
        · exact ht h1
        · exact hd h2.symm

/-- Helper: the chunk map of the fused state binds every input text to the
payload the code retains: the last semantic occurrence if the text occurs in
the semantic list, otherwise the first bm25 occurrence. -/
theorem mapGet_fusionState (sem bm : List ChunkDict) (k : Nat) (t : String)
    (ht : (t ∈ sem.map fun d => d.chunk) ∨ t ∈ bm.map fun d => d.chunk) :
    mapGet (fusionState sem bm k).2 t = retainedPayload sem bm t := by
  unfold fusionState
  rw [show rrfLoopSem k ([], []) 0 sem =
      ((rrfLoopSem k ([], []) 0 sem).1, (rrfLoopSem k ([], []) 0 sem).2) from rfl]
  rw [mapGet_rrfLoopBm]
  by_cases hsem : t ∈ sem.map fun d => d.chunk
  · have hkey : t ∈ (rrfLoopSem k ([], []) 0 sem).2.map Prod.fst := by
      rw [keys_rrfLoopSem]
      exact Or.inr hsem
    rw [if_pos hkey, mapGet_rrfLoopSem]
    rcases List.mem_map.mp hsem with ⟨d0, hd0, hd0t⟩
    have hmem : d0 ∈ sem.filter fun d => d.chunk = t :=
      List.mem_filter.mpr ⟨hd0, by simpa using hd0t⟩
    rcases h : (sem.filter fun d => d.chunk = t).getLast? with _ | z
    · rw [List.getLast?_eq_none_iff] at h
      rw [h] at hmem
      simp at hmem
    · rw [h]
      simp only [Option.getD_some]
      unfold retainedPayload
      rw [h]
  · rcases ht with h | hbm
    · exact absurd h hsem
    · have hkey : t ∉ (rrfLoopSem k ([], []) 0 sem).2.map Prod.fst := by
        rw [keys_rrfLoopSem]
        rintro (h1 | h2)
        · simp at h1
        · exact hsem h2
      rw [if_neg hkey, mapGet_rrfLoopSem]
      have hfil : (sem.filter fun d => d.chunk = t) = [] := by
        rw [List.filter_eq_nil_iff]
        intro d hd hdt
        exact hsem (List.mem_map.mpr ⟨d, hd, by simpa using hdt⟩)
      rcases List.mem_map.mp hbm with ⟨d0, hd0, hd0t⟩
      have hmem : d0 ∈ bm.filter fun d => d.chunk = t :=
        List.mem_filter.mpr ⟨hd0, by simpa using hd0t⟩
      rcases h : (bm.filter fun d => d.chunk = t).head? with _ | z
      · rw [List.head?_eq_none_iff] at h
        rw [h] at hmem
        simp at hmem
      · rw [h]
        simp only [Option.getD_some]
        unfold retainedPayload
        rw [hfil]
        simp [h]

/-- Helper: the texts of the fused list are the sorted scores keys. -/
theorem fusion_texts_eq (sem bm : List ChunkDict) (k : Nat) :
    (reciprocal_rank_fusion sem bm k).map (fun e => e.chunk) =
      List.insertionSort
        (fun a b => getVal (fusionState sem bm k).1 b ≤
          getVal (fusionState sem bm k).1 a)
        ((fusionState sem bm k).1.map Prod.fst) := by
  unfold reciprocal_rank_fusion
  rw [List.map_map]
  refine Eq.trans (List.map_congr_left ?_) (List.map_id _)
  intro t ht
  rw [List.mem_insertionSort] at ht
  show (mapGet (fusionState sem bm k).2 t).chunk = t
  refine mapGet_chunk _ (mapInv_fusionState sem bm k) t ?_
  rw [mem_keys_fusionState_map]
  rw [mem_keys_fusionState] at ht
  exact ht

/-- C8 counterexample: with a semantic list repeating the same chunk text
(reachable when two stored chunks share a text), the fused entry keeps the
metadata of the LAST semantic occurrence, not of the first occurrence: for
sem = [(t, X), (t, Y)] and bm = [(t, Z)], the single fused entry carries
metadata Y while the first occurrence of t across the inputs carries X. -/
theorem fusion_payload_counterexample :
    (reciprocal_rank_fusion semDup bmDup 60).map (fun e => e.metadata) =
      [⟨"Y", 2⟩] ∧
    (semDup ++ bmDup).head?.map (fun e => e.metadata) = some ⟨"X", 1⟩ ∧
    (⟨"Y", 2⟩ : Meta) ≠ ⟨"X", 1⟩ :=
  ⟨by decide, by decide, by decide⟩

/-- C8 (amended).  Fusion deduplication: the fused list has exactly one entry
per distinct chunk text occurring in either input list; the entry for a text
retains the text/metadata payload of its last occurrence in the semantic
list when the text occurs there — which is its first occurrence whenever the
inputs are duplicate-free, as ranked search outputs are — and otherwise of
its first bm25 occurrence. -/
theorem fusion_dedup_payload (sem bm : List ChunkDict) :
    ((reciprocal_rank_fusion sem bm 60).map fun e => e.chunk).Nodup ∧
    (∀ t, (t ∈ (reciprocal_rank_fusion sem bm 60).map fun e => e.chunk) ↔
      ((t ∈ sem.map fun d => d.chunk) ∨ t ∈ bm.map fun d => d.chunk)) ∧
    (∀ e ∈ reciprocal_rank_fusion sem bm 60,
      e.chunk = (retainedPayload sem bm e.chunk).chunk ∧
      e.metadata = (retainedPayload sem bm e.chunk).metadata) := by
  refine ⟨?_, ?_, ?_⟩
  · rw [fusion_texts_eq]
    exact ((List.perm_insertionSort _ _).nodup_iff).mpr
      (nodup_keys_fusionState sem bm 60)
  · intro t
    rw [fusion_texts_eq, List.mem_insertionSort, mem_keys_fusionState]
  · intro e he
    rcases mem_fusion sem bm 60 e he with ⟨t, htk, he2, hchunk⟩
    have hmem : (t ∈ sem.map fun d => d.chunk) ∨ t ∈ bm.map fun d => d.chunk := by
      rw [← mem_keys_fusionState sem bm 60]
      exact htk
    have hget := mapGet_fusionState sem bm 60 t hmem
    subst he2
    rw [hchunk, ← hget]
    exact ⟨hchunk.symm, rfl⟩

/-- C8 witness for the amended claim: at the concrete duplicated inputs, the
text t has exactly one fused entry. -/
theorem fusion_dedup_payload_witness :
    "t" ∈ (reciprocal_rank_fusion semDup bmDup 60).map fun e => e.chunk :=
  ((fusion_dedup_payload semDup bmDup).2.1 "t").mpr (Or.inl (by decide))

/-- C7.  Page-number extraction: the extracted list is the duplicate-free
union of all numbers matched by the five fixed patterns, sorted strictly
ascending; a range match (a, b) with a ≤ b contributes every page from a to
b inclusive; and concretely "pages 3 to 5" extracts exactly [3, 4, 5]. -/
theorem page_extraction (q : String) :
    List.Sorted (· < ·) (extract_page_numbers q) ∧
    (∀ n, n ∈ extract_page_numbers q ↔ n ∈ matchedNumbers q) ∧
    (∀ a b, (a, b) ∈ scanPattern matchP1 q → a ≤ b →
      ∀ p, a ≤ p → p ≤ b → p ∈ extract_page_numbers q) ∧
    extract_page_numbers "pages 3 to 5" = [3, 4, 5] := by
  have hmem : ∀ n, n ∈ extract_page_numbers q ↔ n ∈ matchedNumbers q := by
    intro n
    unfold extract_page_numbers
    rw [List.mem_insertionSort, List.mem_dedup]
  refine ⟨?_, hmem, ?_, by decide⟩
  · have hsle : List.Sorted (· ≤ ·) (extract_page_numbers q) :=
      List.sorted_insertionSort (· ≤ ·) _
    have hnd : (extract_page_numbers q).Nodup :=
      ((List.perm_insertionSort _ _).nodup_iff).mpr (List.nodup_dedup _)
    exact hsle.lt_of_le hnd
  · intro a b hab hle p hap hpb
    rw [hmem]
    unfold matchedNumbers
    refine List.mem_append_left _ (List.mem_append_left _ ?_)
    refine List.mem_append_left _ (List.mem_append_left _ ?_)
    rw [List.mem_flatMap]
    refine ⟨(a, b), hab, ?_⟩
    rw [List.mem_map]
    exact ⟨p - a, List.mem_range.mpr (by omega), by omega⟩

/-- C7 witness: the range match (3, 5) of "pages 3 to 5" puts 4 in the
extracted pages. -/
theorem page_extraction_witness :
    ((3, 5) ∈ scanPattern matchP1 "pages 3 to 5" ∧ 3 ≤ 5) ∧
    4 ∈ extract_page_numbers "pages 3 to 5" :=
  ⟨⟨by decide, by decide⟩,
    (page_extraction "pages 3 to 5").2.2.1 3 5 (by decide) (by decide) 4
      (by decide) (by decide)⟩

/-- C9 counterexample: against the same one-chunk store snapshot and
deterministic model functions, a call starting from the stale-size initial
cache rebuilds and retrieves the stored chunk, while a call starting from a
cache whose recorded size matches but whose cached corpus is a different
document (the count-only-invalidation gap) serves the stale chunk — the two
result lists differ, refuting the claim for arbitrary starting caches. -/
theorem hybrid_cache_sensitivity_counterexample :
    (hybrid_retrieve dense0 ce0 bmS1 "q" store9 cacheA).1.map
      (fun e => e.chunk) = ["alpha"] ∧
    (hybrid_retrieve dense0 ce0 bmS1 "q" store9 cacheB).1.map
      (fun e => e.chunk) = ["beta"] ∧
    (hybrid_retrieve dense0 ce0 bmS1 "q" store9 cacheA).1 ≠
      (hybrid_retrieve dense0 ce0 bmS1 "q" store9 cacheB).1 :=
  ⟨by decide, by decide, by decide⟩

/-- Helper: a consistent cache always yields the fresh index and the live
chunk list, whether or not a rebuild runs. -/
theorem get_bm25_index_consistent (store : List ChunkDict) (c : BmCache)
    (hc : cacheConsistent store c) (hlen : ¬ store.length = 0) :
    (get_bm25_index store c).1 = (some (store.map tokenizeDoc), store) := by
  unfold get_bm25_index
  rw [if_neg hlen]
  by_cases hsz : (store.length : Int) ≠ c.size
  · rw [if_pos hsz]
  · rw [if_neg hsz]
    push_neg at hsz
    rcases hc hsz.symm with ⟨hch, hidx⟩
    rw [hch, hidx]

/-- Helper: a sparse search leaves any consistent cache consistent. -/
theorem bm25_search_cache_consistent
    (bmScores : List (List String) → List String → List ℚ)
    (q : String) (k : Nat) (store : List ChunkDict) (c : BmCache)
    (hc : cacheConsistent store c) :
    cacheConsistent store (bm25_search bmScores q k store c).2.1 := by
  have h21 : (bm25_search bmScores q k store c).2.1 =
      (get_bm25_index store c).2.1 := by
    rw [show (bm25_search bmScores q k store c).2.1 =
        ((bm25_search bmScores q k store c).2).1 from rfl,
      bm25_search_cache]
  rw [h21]
  unfold get_bm25_index
  by_cases hlen : store.length = 0
  · rw [if_pos hlen]
    exact hc
  · rw [if_neg hlen]
    by_cases hsz : (store.length : Int) ≠ c.size
    · rw [if_pos hsz]
      intro _
      exact ⟨rfl, rfl⟩
    · rw [if_neg hsz]
      exact hc

/-- C9 (amended).  Hybrid determinism: with a fixed store snapshot and
deterministic dense, cross-encoder and BM25 scorers, two calls to
`hybrid_retrieve` from any two starting caches that are consistent with the
snapshot (size-stale, or holding exactly the snapshot's corpus — every cache
the code itself produces against this snapshot qualifies) return identical
ordered result lists; moreover a call leaves a consistent cache consistent,
so in particular repeated sequential calls return identical results. -/
theorem hybrid_consistent_deterministic (dense : String → Nat → List ChunkDict)
    (ce : String → String → ℚ)
    (bmScores : List (List String) → List String → List ℚ)
    (q : String) (store : List ChunkDict) (c1 c2 : BmCache)
    (h1 : cacheConsistent store c1) (h2 : cacheConsistent store c2) :
    (hybrid_retrieve dense ce bmScores q store c1).1 =
      (hybrid_retrieve dense ce bmScores q store c2).1 ∧
    cacheConsistent store (hybrid_retrieve dense ce bmScores q store c1).2 := by
  by_cases hlen : store.length = 0
  · constructor
    · simp only [hybrid_retrieve, if_pos hlen]
    · simp only [hybrid_retrieve, if_pos hlen]
      exact h1
  · have hbm : (bm25_search bmScores q (min RETRIEVAL_TOP_K store.length) store c1).1 =
        (bm25_search bmScores q (min RETRIEVAL_TOP_K store.length) store c2).1 := by
      rw [bm25_search_results bmScores q _ store c1 (store.map tokenizeDoc) store
          (get_bm25_index_consistent store c1 h1 hlen),
        bm25_search_results bmScores q _ store c2 (store.map tokenizeDoc) store
          (get_bm25_index_consistent store c2 h2 hlen)]
    constructor
    · simp only [hybrid_retrieve, if_neg hlen]
      rw [hbm]
    · simp only [hybrid_retrieve, if_neg hlen]
      exact bm25_search_cache_consistent bmScores q _ store c1 h1

/-- C9 witness: the stale-size initial cache and the rebuilt cache are both
consistent with `store9`, and calls from them return identical results. -/
theorem hybrid_consistent_deterministic_witness :
    (cacheConsistent store9 cacheA ∧ cacheConsistent store9 cacheR) ∧
    (hybrid_retrieve dense0 ce0 bmS1 "q" store9 cacheA).1 =
      (hybrid_retrieve dense0 ce0 bmS1 "q" store9 cacheR).1 :=
  ⟨⟨by decide, by decide⟩,
    (hybrid_consistent_deterministic dense0 ce0 bmS1 "q" store9 cacheA cacheR
      (by decide) (by decide)).1⟩

/-- Helper: writing one heap cell leaves every other cell unchanged. -/
theorem hWrite_getD_ne (h : Heap) (a i : Nat) (d : ChunkDict) (hne : a ≠ i) :
    (hWrite h a d).getD i default = h.getD i default := by
  simp [hWrite, List.getD, List.getElem?_set_ne hne]

/-- Helper: an allocation leaves every existing cell unchanged. -/
theorem hAlloc_getD (h : Heap) (d : ChunkDict) (i : Nat) (hi : i < h.length) :
    (hAlloc h d).1.getD i default = h.getD i default :=
  List.getD_append h [d] default i hi

/-- Helper: allocating a list of dicts grows the heap, leaves existing cells
unchanged, and returns only fresh addresses. -/
theorem hAllocList_spec (ds : List ChunkDict) :
    ∀ h : Heap,
    (hAllocList h ds).1.length = h.length + ds.length ∧
    (∀ i, i < h.length → (hAllocList h ds).1.getD i default = h.getD i default) ∧
    (∀ a ∈ (hAllocList h ds).2, h.length ≤ a) := by
  induction ds with
  | nil =>
    intro h
    exact ⟨rfl, fun i _ => rfl, by intro a ha; simp [hAllocList] at ha⟩
  | cons d rest ih =>
    intro h
    have hlen1 : (hAlloc h d).1.length = h.length + 1 := by simp [hAlloc]
    rcases ih (hAlloc h d).1 with ⟨ih1, ih2, ih3⟩
    refine ⟨?_, ?_, ?_⟩
    · show (hAllocList (hAlloc h d).1 rest).1.length = _
      rw [ih1, hlen1, List.length_cons]
      omega
    · intro i hi
      show (hAllocList (hAlloc h d).1 rest).1.getD i default = _
      rw [ih2 i (by omega), hAlloc_getD h d i hi]
    · intro a ha
      rcases List.mem_cons.mp ha with rfl | hmem
      · exact le_refl _
      · have := ih3 a hmem
        omega

/-- Helper: folding writes over addresses at least n leaves every cell below
n unchanged and preserves the heap length. -/
theorem foldl_hWrite_frame (g : Heap → Nat → ChunkDict) (n : Nat)
    (as : List Nat) :
    ∀ h : Heap, (∀ a ∈ as, n ≤ a) →
    (∀ i, i < n →
      (as.foldl (fun hh a => hWrite hh a (g hh a)) h).getD i default =
        h.getD i default) ∧
    (as.foldl (fun hh a => hWrite hh a (g hh a)) h).length = h.length := by
  induction as with
  | nil => intro h _; exact ⟨fun i _ => rfl, rfl⟩
  | cons a rest ih =>
    intro h has
    have h1 := ih (hWrite h a (g h a))
      (fun x hx => has x (List.mem_cons_of_mem _ hx))
    have hge := has a (List.mem_cons_self _ _)
    refine ⟨?_, ?_⟩
    · intro i hi
      show (rest.foldl _ (hWrite h a (g h a))).getD i default = _
      rw [h1.1 i hi]
      exact hWrite_getD_ne h a i _ (by omega)
    · show (rest.foldl _ (hWrite h a (g h a))).length = _
      rw [h1.2]
      exact List.length_set h a _

/-- Helper: the dense stage allocates fresh hit dicts and mutates only them
("source" tagging), leaving the pre-existing heap intact. -/
theorem hSemanticHits_frame (dense : String → Nat → List ChunkDict)
    (q : String) (k : Nat) (h : Heap) :
    (∀ i, i < h.length →
      (hSemanticHits dense q k h).2.getD i default = h.getD i default) ∧
    h.length ≤ (hSemanticHits dense q k h).2.length := by
  rcases hAllocList_spec (dense q k) h with ⟨a1, a2, a3⟩
  have hw := foldl_hWrite_frame
    (fun hh a => { hRead hh a with source := some "semantic" }) h.length
    (hAllocList h (dense q k)).2 (hAllocList h (dense q k)).1 a3
  constructor
  · intro i hi
    show ((hAllocList h (dense q k)).2.foldl _ (hAllocList h (dense q k)).1).getD
        i default = _
    rw [hw.1 i hi, a2 i hi]
  · show h.length ≤
      ((hAllocList h (dense q k)).2.foldl _ (hAllocList h (dense q k)).1).length
    rw [hw.2, a1]
    omega

/-- Helper: the heap view of `_get_bm25_index` preserves the pre-existing
heap; without a rebuild the cache record is returned untouched, and a rebuild
fills the cached chunk list with fresh addresses only. -/
theorem hGetBm25Index_frame (store : List ChunkDict) (c : HCache) (h : Heap) :
    (∀ i, i < h.length →
      (hGetBm25Index store c h).2.2.getD i default = h.getD i default) ∧
    h.length ≤ (hGetBm25Index store c h).2.2.length ∧
    ((store.length = 0 ∨ (store.length : Int) = c.size) →
      (hGetBm25Index store c h).2.1 = c) ∧
    ((store.length ≠ 0 ∧ (store.length : Int) ≠ c.size) →
      ∀ a ∈ (hGetBm25Index store c h).2.1.addrs, h.length ≤ a) := by
  unfold hGetBm25Index
  by_cases hlen : store.length = 0
  · rw [if_pos hlen]
    refine ⟨fun i _ => rfl, le_refl _, fun _ => rfl, ?_⟩
    rintro ⟨h1, _⟩
    exact absurd hlen h1
  · rw [if_neg hlen]
    by_cases hsz : (store.length : Int) ≠ c.size
    · rw [if_pos hsz]
      rcases hAllocList_spec store h with ⟨a1, a2, a3⟩
      refine ⟨a2, by rw [a1]; omega, ?_, fun _ => a3⟩
      rintro (h1 | h2)
      · exact absurd h1 hlen
      · exact absurd h2 hsz
    · rw [if_neg hsz]
      push_neg at hsz
      refine ⟨fun i _ => rfl, le_refl _, fun _ => rfl, ?_⟩
      rintro ⟨_, h2⟩
      exact absurd hsz h2

/-- Helper: the result-building fold of the heap bm25 search only allocates,
leaving existing cells unchanged. -/
theorem foldl_hBm25Step_frame (scores : List ℚ) (caddrs : List Nat)
    (idxs : List Nat) :
    ∀ acc : Heap × List Nat,
    (∀ i, i < acc.1.length →
      (idxs.foldl (hBm25Step scores caddrs) acc).1.getD i default =
        acc.1.getD i default) ∧
    acc.1.length ≤ (idxs.foldl (hBm25Step scores caddrs) acc).1.length := by
  induction idxs with
  | nil => intro acc; exact ⟨fun i _ => rfl, le_refl _⟩
  | cons j rest ih =>
    intro acc
    have hstep : (∀ i, i < acc.1.length →
        (hBm25Step scores caddrs acc j).1.getD i default = acc.1.getD i default) ∧
        acc.1.length ≤ (hBm25Step scores caddrs acc j).1.length := by
      unfold hBm25Step
      by_cases hs : scores.getD j 0 ≤ 0
      · rw [if_pos hs]
        exact ⟨fun i _ => rfl, le_refl _⟩
      · rw [if_neg hs]
        refine ⟨fun i hi => hAlloc_getD acc.1 _ i hi, ?_⟩
        show acc.1.length ≤ (hAlloc acc.1 _).1.length
        simp [hAlloc]
    rcases ih (hBm25Step scores caddrs acc j) with ⟨ih1, ih2⟩
    refine ⟨?_, le_trans hstep.2 ih2⟩
    intro i hi
    show (rest.foldl _ (hBm25Step scores caddrs acc j)).1.getD i default = _
    rw [ih1 i (lt_of_lt_of_le hi hstep.2), hstep.1 i hi]

/-- Helper: the heap bm25 search without an index returns the
`hGetBm25Index` state unchanged. -/
theorem hBm25Search_eq_none (bmScores : List (List String) → List String → List ℚ)
    (q : String) (k : Nat) (store : List ChunkDict) (c : HCache) (h : Heap)
    (caddrs : List Nat) (c2 : HCache) (h2 : Heap)
    (hg : hGetBm25Index store c h = ((none, caddrs), c2, h2)) :
    hBm25Search bmScores q k store c h = ([], c2, h2) := by
  unfold hBm25Search
  rw [hg]

/-- Helper: the heap bm25 search with an index runs the result fold over the
`hGetBm25Index` heap. -/
theorem hBm25Search_eq_some (bmScores : List (List String) → List String → List ℚ)
    (q : String) (k : Nat) (store : List ChunkDict) (c : HCache) (h : Heap)
    (tok : List (List String)) (caddrs : List Nat) (c2 : HCache) (h2 : Heap)
    (hg : hGetBm25Index store c h = ((some tok, caddrs), c2, h2)) :
    hBm25Search bmScores q k store c h =
      if min k (bmScores tok (pySplit (lowerStr q))).length = 0 then ([], c2, h2)
      else
        (((bm25TopIdx (bmScores tok (pySplit (lowerStr q)))
            (min k (bmScores tok (pySplit (lowerStr q))).length)).foldl
            (hBm25Step (bmScores tok (pySplit (lowerStr q))) caddrs) (h2, [])).2,
          c2,
          ((bm25TopIdx (bmScores tok (pySplit (lowerStr q)))
            (min k (bmScores tok (pySplit (lowerStr q))).length)).foldl
            (hBm25Step (bmScores tok (pySplit (lowerStr q))) caddrs) (h2, [])).1) := by
  unfold hBm25Search
  rw [hg]

/-- Helper: the heap bm25 search preserves the pre-existing heap and has the
cache behaviour of `hGetBm25Index`. -/
theorem hBm25Search_frame (bmScores : List (List String) → List String → List ℚ)
    (q : String) (k : Nat) (store : List ChunkDict) (c : HCache) (h : Heap) :
    (∀ i, i < h.length →
      (hBm25Search bmScores q k store c h).2.2.getD i default = h.getD i default) ∧
    h.length ≤ (hBm25Search bmScores q k store c h).2.2.length ∧
    ((store.length = 0 ∨ (store.length : Int) = c.size) →
      (hBm25Search bmScores q k store c h).2.1 = c) ∧
    ((store.length ≠ 0 ∧ (store.length : Int) ≠ c.size) →
      ∀ a ∈ (hBm25Search bmScores q k store c h).2.1.addrs, h.length ≤ a) := by
  have hgf := hGetBm25Index_frame store c h
  rcases hg : hGetBm25Index store c h with ⟨⟨idx?, caddrs⟩, c2, h2⟩
  rw [hg] at hgf
  cases idx? with
  | none =>
    rw [hBm25Search_eq_none bmScores q k store c h caddrs c2 h2 hg]
    exact hgf
  | some tok =>
    rw [hBm25Search_eq_some bmScores q k store c h tok caddrs c2 h2 hg]
    by_cases hk : min k (bmScores tok (pySplit (lowerStr q))).length = 0
    · rw [if_pos hk]
      exact hgf
    · rw [if_neg hk]
      have hff := foldl_hBm25Step_frame (bmScores tok (pySplit (lowerStr q)))
        caddrs (bm25TopIdx (bmScores tok (pySplit (lowerStr q)))
          (min k (bmScores tok (pySplit (lowerStr q))).length)) (h2, [])
      refine ⟨?_, le_trans hgf.2.1 hff.2, hgf.2.2.1, hgf.2.2.2⟩
      intro i hi
      rw [hff.1 i (lt_of_lt_of_le hi hgf.2.1)]
      exact hgf.1 i hi

/-- Helper: heap fusion allocates the copies fresh, preserving the
pre-existing heap. -/
theorem hFusion_frame (semA bmA : List Nat) (k : Nat) (h : Heap) :
    (∀ i, i < h.length →
      (hFusion semA bmA k h).2.getD i default = h.getD i default) ∧
    h.length ≤ (hFusion semA bmA k h).2.length ∧
    (∀ a ∈ (hFusion semA bmA k h).1, h.length ≤ a) := by
  rcases hAllocList_spec
    (reciprocal_rank_fusion (semA.map (hRead h)) (bmA.map (hRead h)) k) h with
    ⟨a1, a2, a3⟩
  refine ⟨a2, ?_, a3⟩
  show h.length ≤ (hAllocList h _).1.length
  rw [a1]
  omega

/-- Helper: heap re-rank writes only to its candidate addresses; cells below
any bound under all of them are unchanged. -/
theorem hRerank_frame (ce : String → String → ℚ) (q : String)
    (candA : List Nat) (k : Nat) (h : Heap) (n : Nat)
    (hc : ∀ a ∈ candA, n ≤ a) :
    ∀ i, i < n → (hRerank ce q candA k h).2.getD i default = h.getD i default := by
  unfold hRerank
  by_cases hcand : candA = []
  · rw [if_pos hcand]
    exact fun i _ => rfl
  · rw [if_neg hcand]
    intro i hi
    exact (foldl_hWrite_frame
      (fun hh a => { hRead hh a with rerank_score := some (ce q (hRead hh a).chunk) })
      n candA h hc).1 i hi

/-- C10.  Queries leave the shared cache unchanged: in the heap-instrumented
pipeline (dict objects with identity; fusion allocates `.copy()`s, re-rank
writes `rerank_score` only to those copies), a `hybrid_retrieve` call never
changes any pre-existing heap cell — in particular none of the cached BM25
chunk dicts — and the cached address list itself is returned untouched
unless a size-change rebuild replaces it wholesale with freshly allocated
dicts. -/
theorem hybrid_heap_frame (dense : String → Nat → List ChunkDict)
    (ce : String → String → ℚ)
    (bmScores : List (List String) → List String → List ℚ)
    (q : String) (store : List ChunkDict) (c : HCache) (h : Heap) :
    (∀ i, i < h.length →
      (hHybridRetrieve dense ce bmScores q store c h).2.2.getD i default =
        h.getD i default) ∧
    ((store.length = 0 ∨ (store.length : Int) = c.size) →
      (hHybridRetrieve dense ce bmScores q store c h).2.1 = c) ∧
    ((store.length ≠ 0 ∧ (store.length : Int) ≠ c.size) →
      ∀ a ∈ (hHybridRetrieve dense ce bmScores q store c h).2.1.addrs,
        h.length ≤ a) := by
  by_cases hlen : store.length = 0
  · refine ⟨?_, ?_, ?_⟩
    · intro i hi
      simp only [hHybridRetrieve, if_pos hlen]
    · intro hcase
      simp only [hHybridRetrieve, if_pos hlen]
    · rintro ⟨h1, _⟩
      exact absurd hlen h1
  · have hsemf := hSemanticHits_frame dense q (min RETRIEVAL_TOP_K store.length) h
    have hbmf := hBm25Search_frame bmScores q (min RETRIEVAL_TOP_K store.length)
      store c (hSemanticHits dense q (min RETRIEVAL_TOP_K store.length) h).2
    have hfuf := hFusion_frame
      (hSemanticHits dense q (min RETRIEVAL_TOP_K store.length) h).1
      (hBm25Search bmScores q (min RETRIEVAL_TOP_K store.length) store c
        (hSemanticHits dense q (min RETRIEVAL_TOP_K store.length) h).2).1 60
      (hBm25Search bmScores q (min RETRIEVAL_TOP_K store.length) store c
        (hSemanticHits dense q (min RETRIEVAL_TOP_K store.length) h).2).2.2
    refine ⟨?_, ?_, ?_⟩
    · intro i hi
      simp only [hHybridRetrieve, if_neg hlen]
      set sem := hSemanticHits dense q (min RETRIEVAL_TOP_K store.length) h
        with hsemdef
      set bm := hBm25Search bmScores q (min RETRIEVAL_TOP_K store.length) store c
        sem.2 with hbmdef
      set fu := hFusion sem.1 bm.1 60 bm.2.2 with hfudef
      have hrr := hRerank_frame ce q
        (fu.1.take (min (RETRIEVAL_TOP_K * 2) fu.1.length)) RERANK_TOP_K fu.2
        h.length
        (fun a ha => le_trans (le_trans hsemf.2 hbmf.2.1)
          (hfuf.2.2 a (List.mem_of_mem_take ha)))
      rw [hrr i hi, hfuf.1 i (lt_of_lt_of_le hi (le_trans hsemf.2 hbmf.2.1)),
        hbmf.1 i (lt_of_lt_of_le hi hsemf.2)]
      exact hsemf.1 i hi
    · intro hcase
      simp only [hHybridRetrieve, if_neg hlen]
      exact hbmf.2.2.1 hcase
    · intro hcase a
      simp only [hHybridRetrieve, if_neg hlen]
      intro ha
      exact le_trans hsemf.2 (hbmf.2.2.2 hcase a ha)

/-- C10 witness: against a one-dict heap holding the cached chunk, a hybrid
call whose cache size matches the store leaves the cached dict and the cache
record untouched. -/
theorem hybrid_heap_frame_witness :
    (0 < ([exChunk "cached" "d" 1] : Heap).length ∧
      (([exChunk "cached" "d" 1] : List ChunkDict).length = 0 ∨
        (([exChunk "cached" "d" 1] : List ChunkDict).length : Int) = hc0.size)) ∧
    (hHybridRetrieve dense0 ce0 bmS1 "q" [exChunk "cached" "d" 1] hc0
        [exChunk "cached" "d" 1]).2.2.getD 0 default =
      ([exChunk "cached" "d" 1] : Heap).getD 0 default ∧
    (hHybridRetrieve dense0 ce0 bmS1 "q" [exChunk "cached" "d" 1] hc0
        [exChunk "cached" "d" 1]).2.1 = hc0 :=
  ⟨⟨by decide, Or.inr (by decide)⟩,
    (hybrid_heap_frame dense0 ce0 bmS1 "q" [exChunk "cached" "d" 1] hc0
      [exChunk "cached" "d" 1]).1 0 (by decide),
    (hybrid_heap_frame dense0 ce0 bmS1 "q" [exChunk "cached" "d" 1] hc0
      [exChunk "cached" "d" 1]).2.1 (Or.inr (by decide))⟩

/-- C6 witness: against a one-chunk store, a search from the initial cache
state rebuilds and records size 1; a second search from the resulting state
does not rebuild and leaves it unchanged. -/
theorem bm25_cache_invariant_witness :
    (store9 ≠ []) ∧
    ((bm25_search bmS1 "q" 15 store9 cacheA).2.2 = true ↔
      (store9.length : Int) ≠ cacheA.size) ∧
    ((bm25_search bmS1 "q" 15 store9
        (bm25_search bmS1 "q" 15 store9 cacheA).2.1).2.2 = true ↔
      (store9.length : Int) ≠ (bm25_search bmS1 "q" 15 store9 cacheA).2.1.size) :=
  ⟨by decide,
    (bm25_cache_invariant bmS1 "q" 15 store9 cacheA (by decide)).1,
    (bm25_cache_invariant bmS1 "q" 15 store9
      (bm25_search bmS1 "q" 15 store9 cacheA).2.1 (by decide)).1⟩

end LW
